import Mathlib

/-!
Verification development for the message-adding core of a mail indexer
(`lib/add-message.cc`): the RFC 822 message-id parser, the
References/In-Reply-To parser, thread resolution (ghost and legacy
formats), thread merging, and the top-level add pipeline.

C strings are modelled as `List Char`: the end of the list plays the
role of the terminating NUL, so "reading to the terminator" is reading
to the end of the list.  Machine pointers into the string are modelled
as suffixes of the list.
-/

namespace NotmuchAdd

/-- A C string (the part before the terminating NUL). -/
abbrev Str := List Char

/-- Characters accepted by C `isspace` in the default locale. -/
def isSpaceC (c : Char) : Bool :=
  c = ' ' || c = '\t' || c = '\n' || c = '\x0b' || c = '\x0c' || c = '\r'

/-- Embedding of `skip_space_and_comments` (add-message.cc:11-38).
The C function is an outer loop (skip whitespace, then on `(` run an
inner comment loop tracking a nesting counter, with `\` escaping the
next character).  Both loops advance the same pointer one or two
characters per step, so here they are fused into one structurally
recursive automaton: state `0` is the outer loop, state `n+1` is the
inner loop with `nesting = n+1`.  Reaching the end of the list is the
C loop condition `*s == '\0'`. -/
def skipSCAux : Nat → List Char → List Char
  | _, [] => []
  | 0, c :: rest =>
    if isSpaceC c then skipSCAux 0 rest
    else if c = '(' then skipSCAux 1 rest
    else c :: rest
  | n + 1, c :: rest =>
    if c = '(' then skipSCAux (n + 2) rest
    else if c = ')' then skipSCAux n rest
    else if c = '\\' then
      match rest with
      | [] => []
      | _ :: rest2 => skipSCAux (n + 1) rest2
    else skipSCAux (n + 1) rest

/-- `skip_space_and_comments` advances past whitespace and RFC 822
comments; the returned list is the new value of `*str`. -/
def skip_space_and_comments (s : List Char) : List Char :=
  skipSCAux 0 s

/-- Embedding of the whitespace-collapsing loop at the end of
`_parse_message_id` (add-message.cc:95-102).  The C loop does
`memmove (r, r+1, len)` when `*r` is a space or tab and then still
advances `r`, so the character shifted into the current position is
kept unconditionally (consecutive whitespace is only thinned, not
fully removed). -/
def collapseWs : List Char → List Char
  | [] => []
  | c :: rest =>
    if c = ' ' || c = '\t' then
      match rest with
      | [] => []
      | c2 :: rest2 => c2 :: collapseWs rest2
    else c :: collapseWs rest

/-- Embedding of `_parse_message_id` (add-message.cc:49-105).
Returns the parsed identifier (or `none`) together with the final
value of `*next`.  Pointer arithmetic notes: after locating `<`, the
C code scans `end` to the next `>` or NUL; `*next` is `end+1` when a
`>` was found and `end` otherwise.  When a `>` was found, `end` is
then decremented and the candidate rejected if `end <= s`, so the
identifier body between `<` and `>` must have length at least 2; in
the unterminated case (no `>`) length 1 suffices.  The accepted body
is copied (`talloc_strndup`) and its spaces/tabs collapsed. -/
def parse_message_id (s : List Char) : Option (List Char) × List Char :=
  match s with
  | [] => (none, [])
  | _ :: _ =>
    let s1 := skip_space_and_comments s
    -- Skip any unstructured text as well: while (*s && *s != '<') s++;
    let s2 := s1.dropWhile (fun c => c != '<')
    match s2 with
    | '<' :: s3 =>
      let s4 := skip_space_and_comments s3
      let body := s4.takeWhile (fun c => c != '>')
      let after := s4.dropWhile (fun c => c != '>')
      match after with
      | _ :: rest =>
        if 2 ≤ body.length then (some (collapseWs body), rest) else (none, rest)
      | [] =>
        if 1 ≤ body.length then (some (collapseWs body), []) else (none, [])
    | _ => (none, s2)

/-- Set-insertion into the parent table (`g_hash_table_add` with string
keys compared by value: adding a key already present leaves the key set
unchanged).  The list records the keys; insertion order is kept, while
GLib iterates keys in an unspecified order. -/
def hashAdd (h : List Str) (k : Str) : List Str :=
  if k ∈ h then h else h ++ [k]

/-- All identifiers produced by iterating `_parse_message_id` over a
header value, in order (the `while (*refs)` loop shape of
`parse_references`, add-message.cc:128-135, without the self-filter).
The fuel argument bounds the number of loop iterations; every
iteration on a non-empty string consumes at least one character
(`parse_rest_lt` below), so fuel `s.length` is exact. -/
def parseAllAux : Nat → List Char → List Str
  | _, [] => []
  | 0, _ => []
  | fuel + 1, c :: cs =>
    match parse_message_id (c :: cs) with
    | (some r, rest) => r :: parseAllAux fuel rest
    | (none, rest) => parseAllAux fuel rest

def parseAllIds (s : List Char) : List Str :=
  parseAllAux s.length s

/-- Embedding of `parse_references` (add-message.cc:117-142): iterate
`_parse_message_id` over the header, add every identifier different
from `message_id` to the hash, and track the last such identifier.
Returns the final hash contents and the last non-self reference. -/
def parseRefsAux (selfId : Str) : Nat → List Str → Option Str → List Char → List Str × Option Str
  | _, h, lastR, [] => (h, lastR)
  | 0, h, lastR, _ => (h, lastR)
  | fuel + 1, h, lastR, c :: cs =>
    match parse_message_id (c :: cs) with
    | (some ref, rest) =>
      if ref != selfId then parseRefsAux selfId fuel (hashAdd h ref) (some ref) rest
      else parseRefsAux selfId fuel h lastR rest
    | (none, rest) => parseRefsAux selfId fuel h lastR rest

def parseReferences (selfId : Str) (h : List Str) (refs : List Char) : List Str × Option Str :=
  parseRefsAux selfId refs.length h none refs

/-- Status codes returned by `notmuch_database_add_message`. -/
inductive Status where
  | success
  | duplicateMessageId
  | fileError
  | fileNotEmail
  | readOnlyDatabase
  | xapianException
  | outOfMemory
deriving DecidableEq

/-- An indexed document: a real message (`type=mail`) or a ghost
(`type=ghost`).  `thread`, `refs` and `replyto` model the `thread`,
`reference` and `replyto` terms; `files` the filename list. -/
structure Doc where
  msgid : Str
  isGhost : Bool
  thread : Nat
  refs : List Str
  replyto : Option Str
  files : List Str
deriving DecidableEq

/-- The index state: documents, the `last_thread_id` metadata
high-water mark, the legacy per-message-id thread metadata
(`thread_id_<id>` keys; an absent key is an empty value), the
`NOTMUCH_FEATURE_GHOSTS` flag and the session's sticky
`exception_reported` flag. -/
structure DB where
  docs : List Doc
  lastThreadId : Nat
  meta : List (Str × Nat)
  featureGhosts : Bool
  exceptionReported : Bool
deriving DecidableEq

/-- Look up the (unique) document for a message-id, ghost or real
(`_notmuch_message_create_for_message_id` /
`notmuch_database_find_message`). -/
def dbFind (db : DB) (id : Str) : Option Doc :=
  db.docs.find? (fun d => d.msgid == id)

/-- `_notmuch_database_generate_thread_id`: increment the counter and
persist it under `last_thread_id`.  Thread ids are modelled by the
counter value (the C code prints it as 16 hex digits). -/
def genThreadId (db : DB) : Nat × DB :=
  (db.lastThreadId + 1, { db with lastThreadId := db.lastThreadId + 1 })

/-- The per-document rewrite performed by `_merge_threads`: documents
carrying `thread`=loser have that term replaced by `thread`=winner. -/
def mergeDoc (winner loser : Nat) (d : Doc) : Doc :=
  if d.thread = loser then { d with thread := winner } else d

/-- Embedding of `_merge_threads` (add-message.cc:285-319): enumerate
all documents carrying `thread`=loser and rewrite each of them. -/
def mergeThreads (db : DB) (winner loser : Nat) : DB :=
  { db with docs := db.docs.map (mergeDoc winner loser) }

/-- Legacy metadata lookup (`get_metadata` of a `thread_id_` key).
The C key is the message-id itself, or a deterministic compression of
an oversize id (`_get_metadata_thread_id_key`); the compression lives
outside this file and is injective, so keys are modelled by the
message-id. -/
def metaGet (db : DB) (key : Str) : Option Nat :=
  (db.meta.find? (fun kv => kv.1 == key)).map (fun kv => kv.2)

def metaPut (db : DB) (key : Str) (t : Nat) : DB :=
  { db with meta := (db.meta.filter (fun kv => kv.1 != key)) ++ [(key, t)] }

/-- Clearing a metadata key (`set_metadata (key, "")`: an empty value
means absent). -/
def metaClear (db : DB) (key : Str) : DB :=
  { db with meta := db.meta.filter (fun kv => kv.1 != key) }

/-- Embedding of `_consume_metadata_thread_id` (add-message.cc:449-477):
fetch and clear the stored thread id for a message, if any. -/
def consumeMetadataThreadId (db : DB) (selfId : Str) : Option Nat × DB :=
  match metaGet db selfId with
  | none => (none, db)
  | some t => (some t, metaClear db selfId)

/-- Ghost-format branch of `_resolve_message_id_to_thread_id`
(add-message.cc:193-233): an existing document (regular or ghost)
yields its thread id; otherwise a ghost with a fresh thread id is
created and synced. -/
def resolveGhost (db : DB) (p : Str) : Nat × DB :=
  match dbFind db p with
  | some d => (d.thread, db)
  | none =>
    let g := genThreadId db
    (g.1, { g.2 with docs := g.2.docs ++ [⟨p, true, g.1, [], none, []⟩] })

/-- Embedding of `_resolve_message_id_to_thread_id_old`
(add-message.cc:236-283): an existing message yields its thread id;
otherwise the legacy metadata entry is used, or a fresh id is
generated and stored there. -/
def resolveOld (db : DB) (p : Str) : Nat × DB :=
  match dbFind db p with
  | some d => (d.thread, db)
  | none =>
    match metaGet db p with
    | some t => (t, db)
    | none =>
      let g := genThreadId db
      (g.1, metaPut g.2 p g.1)

/-- Dispatch on `NOTMUCH_FEATURE_GHOSTS` (add-message.cc:202-204). -/
def resolveThreadId (db : DB) (p : Str) : Nat × DB :=
  if db.featureGhosts then resolveGhost db p else resolveOld db p

/-- State threaded through the parent loop of
`_notmuch_database_link_message_to_parents`: the index, the
`reference` terms added to the message so far, and the running thread
id (`*thread_id`). -/
structure LinkSt where
  db : DB
  refsAcc : List Str
  tid : Option Nat
deriving DecidableEq

/-- The `for (l = keys; l; l = l->next)` loop of
`_notmuch_database_link_message_to_parents` (add-message.cc:365-389):
add a `reference` term for the parent, resolve its thread, adopt it
when the running thread id is unset, merge otherwise. -/
def linkParentsLoop : LinkSt → List Str → LinkSt
  | st, [] => st
  | st, p :: ps =>
    let refs1 := st.refsAcc ++ [p]
    let r := resolveThreadId st.db p
    match st.tid with
    | none => linkParentsLoop ⟨r.2, refs1, some r.1⟩ ps
    | some t =>
      if r.1 = t then linkParentsLoop ⟨r.2, refs1, some t⟩ ps
      else linkParentsLoop ⟨mergeThreads r.2 t r.1, refs1, some t⟩ ps

/-- Rewrite the document carrying a given message-id. -/
def updateDoc (docs : List Doc) (id : Str) (f : Doc → Doc) : List Doc :=
  docs.map (fun d => if d.msgid == id then f d else d)

/-- The child loop of `_notmuch_database_link_message_to_children`
(add-message.cc:414-439), iterating over the ids of documents whose
`reference` terms name the current message: adopt the first child's
thread when unset; otherwise remove the stale `reference` term from a
differing child and merge its thread into the running one. -/
def linkChildrenLoop (selfId : Str) : DB → Option Nat → List Str → DB × Option Nat
  | db, tid, [] => (db, tid)
  | db, tid, c :: cs =>
    match dbFind db c with
    | none => linkChildrenLoop selfId db tid cs
    | some child =>
      match tid with
      | none => linkChildrenLoop selfId db (some child.thread) cs
      | some t =>
        if child.thread = t then linkChildrenLoop selfId db (some t) cs
        else
          let db1 := { db with
            docs := updateDoc db.docs c
              (fun d => { d with refs := d.refs.filter (fun r => r != selfId) }) }
          linkChildrenLoop selfId (mergeThreads db1 t child.thread) (some t) cs

/-- Result of `_notmuch_database_link_message`: the updated index, the
`reference` terms and `replyto` term accumulated on the message, and
its final thread id. -/
structure LinkResult where
  db : DB
  refs : List Str
  replyto : Option Str
  thread : Nat
deriving DecidableEq

/-- Embedding of `_notmuch_database_link_message`
(add-message.cc:507-562) together with
`_notmuch_database_link_message_to_parents` (327-398): take the thread
id already on a ghost (current format) or consume the legacy metadata
entry; parse `References` then `In-Reply-To` with self-filtering into
one parent set; pick the `replyto` designate (`References` last
non-self reference, else the `In-Reply-To` one); run the parent loop;
in the legacy format also link to already-indexed children; generate a
fresh thread id if still unassigned.  The parent set is iterated in
insertion order (GLib leaves the key order unspecified). -/
def linkMessage (db : DB) (selfId refsH irtH : Str) (isGhost : Bool) (ghostThread : Nat) :
    LinkResult :=
  let start :=
    if db.featureGhosts then
      ((if isGhost then some ghostThread else none), db)
    else consumeMetadataThreadId db selfId
  let pr1 := parseReferences selfId [] refsH
  let pr2 := parseReferences selfId pr1.1 irtH
  let replyto :=
    match pr1.2 with
    | some r => some r
    | none => pr2.2
  let st := linkParentsLoop ⟨start.2, [], start.1⟩ pr2.1
  let fin :=
    if db.featureGhosts then (st.db, st.tid)
    else
      linkChildrenLoop selfId st.db st.tid
        ((st.db.docs.filter (fun d => d.refs.contains selfId)).map (fun d => d.msgid))
  match fin.2 with
  | some t => ⟨fin.1, st.refsAcc, replyto, t⟩
  | none => ⟨(genThreadId fin.1).2, st.refsAcc, replyto, (genThreadId fin.1).1⟩

/-- One `add` request: the file's name, the message-id determined by
Step A, the two link-relevant header values, and whether at least one
of From/Subject/To is present (the `NOTMUCH_STATUS_FILE_NOT_EMAIL`
guard). -/
structure AddInput where
  filename : Str
  msgid : Str
  refsHeader : Str
  irtHeader : Str
  isEmail : Bool
deriving DecidableEq

/-- The body of `notmuch_database_add_message` (add-message.cc:564-721)
up to its `DONE` label: the not-an-email guard; find-or-create by
message-id; `_notmuch_message_add_filename` in every found/created
case; a found real message short-circuits to
`NOTMUCH_STATUS_DUPLICATE_MESSAGE_ID`; a ghost is promoted
(`type` ghost replaced by mail) and linked with its existing thread
id; a fresh document is linked from scratch; finally the message is
synced into the index. -/
def addMessage (db : DB) (inp : AddInput) : Status × DB :=
  if inp.isEmail = false then (Status.fileNotEmail, db)
  else
    match dbFind db inp.msgid with
    | some d =>
      if d.isGhost then
        let r := linkMessage db inp.msgid inp.refsHeader inp.irtHeader true d.thread
        let newDoc : Doc :=
          ⟨inp.msgid, false, r.thread, d.refs ++ r.refs,
            (match r.replyto with | some x => some x | none => d.replyto),
            d.files ++ [inp.filename]⟩
        (Status.success, { r.db with docs := updateDoc r.db.docs inp.msgid (fun _ => newDoc) })
      else
        (Status.duplicateMessageId,
          { db with
              docs := updateDoc db.docs inp.msgid
                (fun x => { x with files := x.files ++ [inp.filename] }) })
    | none =>
      let r := linkMessage db inp.msgid inp.refsHeader inp.irtHeader false 0
      (Status.success,
        { r.db with docs := r.db.docs ++ [⟨inp.msgid, false, r.thread, r.refs, r.replyto, [inp.filename]⟩] })

/-- The final status combination at the end of
`notmuch_database_add_message` (add-message.cc:714-720): an
`end_atomic` failure overrides a Success or DuplicateMessageId primary
status, otherwise the primary status is preserved. -/
def finalStatus (ret ret2 : Status) : Status :=
  if (ret = Status.success ∨ ret = Status.duplicateMessageId) ∧ ret2 ≠ Status.success
  then ret2 else ret

/-- Modelled from the spec (Step K): `notmuch_database_begin_atomic` /
`notmuch_database_end_atomic` live in database.cc, outside this file;
per Step K an index-layer exception aborts the transaction, so the
staged index mutations (documents, thread counter, metadata) are
discarded and the pre-add index state survives.  The session-level
`exception_reported` flag is not index state and is not rolled back. -/
def abortTransaction (orig staged : DB) : DB :=
  { staged with docs := orig.docs, lastThreadId := orig.lastThreadId, meta := orig.meta }

/-- The full `notmuch_database_add_message` including the exception
handler (add-message.cc:694-700) and the `DONE` epilogue (702-720).
`excState` injects a Xapian exception: `some staged` means the
index layer raised after staging the mutations recorded in `staged`;
the catch block then logs, sets the sticky `exception_reported` flag
and returns `NOTMUCH_STATUS_XAPIAN_EXCEPTION`, and the transaction is
aborted (see `abortTransaction`).  `endAtomicResult` is the status of
the final `notmuch_database_end_atomic` call. -/
def notmuch_database_add_message (db : DB) (inp : AddInput) (excState : Option DB)
    (endAtomicResult : Status) : Status × DB :=
  let (ret, db1) :=
    match excState with
    | none => addMessage db inp
    | some staged =>
      (Status.xapianException, abortTransaction db { staged with exceptionReported := true })
  (finalStatus ret endAtomicResult, db1)

/-- A freshly created index in the current (ghost-capable) format. -/
def emptyDB : DB := ⟨[], 0, [], true, false⟩

/-- The index state after a sequence of add calls, starting from an
empty current-format index.  Each add commits its transaction, so the
states `runAdds (inputs.take k)` are exactly the transaction-commit
points. -/
def runAdds (inputs : List AddInput) : DB :=
  inputs.foldl (fun db i => (addMessage db i).2) emptyDB

/-- One reference/reply edge between two indexed documents, in either
direction: one of them carries a `reference` or `replyto` term naming
the other. -/
def RefEdge (db : DB) (a b : Doc) : Prop :=
  a ∈ db.docs ∧ b ∈ db.docs ∧
    (b.msgid ∈ a.refs ∨ a.replyto = some b.msgid ∨ a.msgid ∈ b.refs ∨ b.replyto = some a.msgid)

/-- Two documents joined by a chain of reference/reply edges (in either
direction, through any intermediate real or ghost documents). -/
def Linked (db : DB) (a b : Doc) : Prop :=
  Relation.ReflTransGen (RefEdge db) a b

/-- The index invariant maintained at every transaction commit:
message-ids are unique; every `reference` term names an existing
document (real or ghost) carrying the same thread id; every `replyto`
term is one of the document's `reference` terms; ghosts carry no
reference or replyto terms. -/
structure Inv (db : DB) : Prop where
  nodupIds : (db.docs.map Doc.msgid).Nodup
  refsClosed : ∀ d ∈ db.docs, ∀ r ∈ d.refs, ∃ e, dbFind db r = some e ∧ e.thread = d.thread
  replyMem : ∀ d ∈ db.docs, ∀ r, d.replyto = some r → r ∈ d.refs
  ghostBlank : ∀ d ∈ db.docs, d.isGhost = true → d.refs = [] ∧ d.replyto = none

/-! Parser lemmas -/

theorem skipSCAux_zero_cons (c : Char) (rest : List Char) :
    skipSCAux 0 (c :: rest) =
      if isSpaceC c then skipSCAux 0 rest
      else if c = '(' then skipSCAux 1 rest
      else c :: rest := by
  simp [skipSCAux]

theorem skipSCAux_succ_cons (n : Nat) (c : Char) (rest : List Char) :
    skipSCAux (n + 1) (c :: rest) =
      if c = '(' then skipSCAux (n + 2) rest
      else if c = ')' then skipSCAux n rest
      else if c = '\\' then
        (match rest with
         | [] => []
         | _ :: rest2 => skipSCAux (n + 1) rest2)
      else skipSCAux (n + 1) rest := by
  cases rest <;> simp [skipSCAux]

theorem skipSCAux_suffix : ∀ n s, skipSCAux n s <:+ s := by
  intro n s
  induction n, s using skipSCAux.induct with
  | case1 x => simp [skipSCAux]
  | case2 c rest h ih =>
    simpa [skipSCAux_zero_cons, h] using ih.trans (List.suffix_cons c rest)
  | case3 rest h ih =>
    simpa [skipSCAux_zero_cons, h] using ih.trans (List.suffix_cons '(' rest)
  | case4 c rest h1 h2 => simp [skipSCAux_zero_cons, h1, h2]
  | case5 n rest ih =>
    simpa [skipSCAux_succ_cons] using ih.trans (List.suffix_cons '(' rest)
  | case6 n rest h ih =>
    simpa [skipSCAux_succ_cons, h] using ih.trans (List.suffix_cons ')' rest)
  | case7 n h1 h2 => simp [skipSCAux_succ_cons, h1, h2]
  | case8 n hd rest2 h1 h2 ih =>
    simpa [skipSCAux_succ_cons, h1, h2] using
      (ih.trans (List.suffix_cons hd rest2)).trans (List.suffix_cons '\\' (hd :: rest2))
  | case9 n c rest h1 h2 h3 ih =>
    simpa [skipSCAux_succ_cons, h1, h2, h3] using ih.trans (List.suffix_cons c rest)

theorem skip_space_and_comments_suffix (s : List Char) : skip_space_and_comments s <:+ s :=
  skipSCAux_suffix 0 s

/-- The `skip_space_and_comments` automaton only stops at the
terminator or, in the outer loop, at a character that is neither
whitespace nor `(`. -/
theorem skipSCAux_head : ∀ n s, skipSCAux n s = [] ∨
    ∃ c t, skipSCAux n s = c :: t ∧ isSpaceC c = false ∧ c ≠ '(' := by
  intro n s
  induction n, s using skipSCAux.induct with
  | case1 x => exact Or.inl (by simp [skipSCAux])
  | case2 c rest h ih => simpa [skipSCAux_zero_cons, h] using ih
  | case3 rest h ih => simpa [skipSCAux_zero_cons, h] using ih
  | case4 c rest h1 h2 =>
    exact Or.inr ⟨c, rest, by simp [skipSCAux_zero_cons, h1, h2], by simpa using h1, h2⟩
  | case5 n rest ih => simpa [skipSCAux_succ_cons] using ih
  | case6 n rest h ih => simpa [skipSCAux_succ_cons, h] using ih
  | case7 n h1 h2 => exact Or.inl (by simp [skipSCAux_succ_cons, h1, h2])
  | case8 n hd rest2 h1 h2 ih => simpa [skipSCAux_succ_cons, h1, h2] using ih
  | case9 n c rest h1 h2 h3 ih => simpa [skipSCAux_succ_cons, h1, h2, h3] using ih

theorem skip_space_and_comments_head (s : List Char) : skip_space_and_comments s = [] ∨
    ∃ c t, skip_space_and_comments s = c :: t ∧ isSpaceC c = false ∧ c ≠ '(' :=
  skipSCAux_head 0 s

theorem skip_space_and_comments_noop (c : Char) (t : List Char) (h1 : isSpaceC c = false)
    (h2 : c ≠ '(') : skip_space_and_comments (c :: t) = c :: t := by
  simp [skip_space_and_comments, skipSCAux, h1, h2]

theorem collapseWs_id (l : List Char) (h : ∀ c ∈ l, c ≠ ' ' ∧ c ≠ '\t') :
    collapseWs l = l := by
  induction l with
  | nil => rfl
  | cons c rest ih =>
    have hc := h c (by simp)
    rw [collapseWs.eq_def]
    simp only [hc.1, hc.2]
    simp [ih fun x hx => h x (by simp [hx])]

theorem collapseWs_cons_ne_nil (c : Char) (t : List Char) (h1 : c ≠ ' ') (h2 : c ≠ '\t') :
    collapseWs (c :: t) ≠ [] := by
  rw [collapseWs.eq_def]
  simp only [h1, h2]
  simp

theorem takeWhile_all_append (p : Char → Bool) (l : List Char) (x : Char) (r : List Char)
    (hl : ∀ c ∈ l, p c = true) (hx : p x = false) :
    (l ++ x :: r).takeWhile p = l ∧ (l ++ x :: r).dropWhile p = x :: r := by
  induction l with
  | nil => simp [List.takeWhile, List.dropWhile, hx]
  | cons c t ih =>
    have hc : p c = true := hl c (by simp)
    have := ih fun d hd => hl d (by simp [hd])
    simp [List.takeWhile, List.dropWhile, hc, this.1, this.2]

theorem isSpaceC_false_elim (c : Char) (h : isSpaceC c = false) : c ≠ ' ' ∧ c ≠ '\t' := by
  unfold isSpaceC at h
  simp only [Bool.or_eq_false_iff, decide_eq_false_iff_not] at h
  tauto

theorem dropWhile_cons_head (p : Char → Bool) (l : List Char) (c : Char) (t : List Char)
    (h : l.dropWhile p = c :: t) : p c = false := by
  induction l with
  | nil => simp at h
  | cons a l ih =>
    rw [List.dropWhile_cons] at h
    by_cases hp : p a = true
    · rw [if_pos hp] at h; exact ih h
    · rw [if_neg hp] at h
      cases h
      simpa using hp

/-- Certificate that a character-list suffix got strictly shorter. -/
theorem cons_suffix_length (c : Char) (t s : List Char) (h : c :: t <:+ s) :
    t.length < s.length := by
  have := h.length_le
  simp at this
  omega

theorem parse_message_id_structure (s : List Char) :
    (parse_message_id s).2 <:+ s ∧
      ((parse_message_id s).2.length < s.length ∨ s = []) ∧
      (∀ id, (parse_message_id s).1 = some id → id ≠ []) := by
  match s with
  | [] => exact ⟨List.nil_suffix, Or.inr rfl, fun id h => by simp [parse_message_id] at h⟩
  | c :: cs =>
    rw [parse_message_id]
    dsimp only
    have hs1 : skip_space_and_comments (c :: cs) <:+ c :: cs :=
      skip_space_and_comments_suffix (c :: cs)
    have hs2 : (skip_space_and_comments (c :: cs)).dropWhile (fun x => x != '<') <:+ c :: cs :=
      (List.dropWhile_suffix _).trans hs1
    split
    · rename_i s3 heq
      have hs3 : s3 <:+ c :: cs := ((List.suffix_cons '<' s3).trans (heq ▸ hs2))
      have hs3lt : s3.length < (c :: cs).length := by
        have := (heq ▸ hs2).length_le
        simp at this ⊢
        omega
      have hs4 : skip_space_and_comments s3 <:+ c :: cs :=
        (skip_space_and_comments_suffix s3).trans hs3
      have hs4len : (skip_space_and_comments s3).length ≤ s3.length :=
        (skip_space_and_comments_suffix s3).length_le
      have hafter : (skip_space_and_comments s3).dropWhile (fun x => x != '>') <:+ c :: cs :=
        (List.dropWhile_suffix _).trans hs4
      have hafterlen :
          ((skip_space_and_comments s3).dropWhile (fun x => x != '>')).length ≤ s3.length :=
        le_trans (List.dropWhile_suffix _).length_le hs4len
      -- the identifier, when produced, starts with the head of s4,
      -- which is not whitespace
      have hident : ∀ id, (∃ n, 1 ≤ n ∧
          n ≤ ((skip_space_and_comments s3).takeWhile (fun x => x != '>')).length) →
          id = collapseWs ((skip_space_and_comments s3).takeWhile (fun x => x != '>')) →
          id ≠ [] := by
        intro id hn hid
        rcases skip_space_and_comments_head s3 with h4 | ⟨d, t, h4, hd1, hd2⟩
        · rw [h4] at hn
          simp at hn
        · rw [h4] at hid hn
          rw [List.takeWhile_cons] at hid hn
          by_cases hpd : (d != '>') = true
          · rw [if_pos hpd] at hid
            have := isSpaceC_false_elim d hd1
            rw [hid]
            exact collapseWs_cons_ne_nil d _ this.1 this.2
          · rw [if_neg hpd] at hn
            simp at hn
      split
      · rename_i a rest hrest
        have hrest' : a :: rest <:+ c :: cs := hrest ▸ hafter
        have hrlt : rest.length < (c :: cs).length := cons_suffix_length a rest _ hrest'
        have hrsuf : rest <:+ c :: cs := (List.suffix_cons a rest).trans hrest'
        split
        · rename_i hlen
          exact ⟨hrsuf, Or.inl hrlt, fun id hid =>
            hident _ ⟨2, by omega, hlen⟩ (Option.some.inj hid).symm⟩
        · exact ⟨hrsuf, Or.inl hrlt, fun id hid => by simp at hid⟩
      · rename_i hrest
        split
        · rename_i hlen
          exact ⟨List.nil_suffix, Or.inl (by simp), fun id hid =>
            hident _ ⟨1, le_rfl, hlen⟩ (Option.some.inj hid).symm⟩
        · exact ⟨List.nil_suffix, Or.inl (by simp), fun id hid => by simp at hid⟩
    · rename_i hne
      refine ⟨hs2, Or.inl ?_, fun id hid => by simp at hid⟩
      -- the dropWhile only stops at '<' or at the terminator; the match
      -- fallthrough therefore only sees the empty list
      rcases h2 : (skip_space_and_comments (c :: cs)).dropWhile (fun x => x != '<') with
        _ | ⟨c2, t2⟩
      · simp
      · have := dropWhile_cons_head _ _ _ _ h2
        simp at this
        exact absurd (h2.trans (by rw [this])) (hne t2)

theorem parse_rest_suffix (s : List Char) : (parse_message_id s).2 <:+ s :=
  (parse_message_id_structure s).1

theorem parse_rest_lt (s : List Char) (h : s ≠ []) :
    (parse_message_id s).2.length < s.length := by
  rcases (parse_message_id_structure s).2.1 with h1 | h1
  · exact h1
  · exact absurd h1 h

/-- C4 counterexample: the claim asserts the round-trip for every
non-empty identifier made of non-space, non-`<`, non-`>` characters,
but the code rejects single-character identifiers: after locating the
closing `>`, `_parse_message_id` decrements `end` and bails out with
NULL when `end <= s` (add-message.cc:86-89), which happens exactly
when the body between `<` and `>` has fewer than two characters.  So
parsing `"<a>"` yields no identifier at all, not `"a"`. -/
theorem c4_counterexample :
    ('a' : Char) ≠ ' ' ∧ ('a' : Char) ≠ '<' ∧ ('a' : Char) ≠ '>' ∧
      (parse_message_id ('<' :: 'a' :: '>' :: [])).1 = none := by decide

/-- C4 (amended): for every identifier of length at least 2 whose
first character is not `(` and containing only non-whitespace,
non-`<`, non-`>` characters, parsing `"<" ++ id ++ ">"` yields exactly
`id`.  (Length 1 fails by the `end <= s` check; a leading `(` would be
consumed as an RFC 822 comment by the `skip_space_and_comments` call
that runs just after the `<` delimiter; whitespace inside the
identifier would be skipped or collapsed away.) -/
theorem c4_roundtrip (id : List Char) (hlen : 2 ≤ id.length)
    (hchars : ∀ c ∈ id, isSpaceC c = false ∧ c ≠ '<' ∧ c ≠ '>')
    (hhead : id.head? ≠ some '(') :
    parse_message_id ('<' :: id ++ ['>']) = (some id, []) := by
  cases id with
  | nil => simp at hlen
  | cons c0 id2 =>
    have hc0 := hchars c0 (by simp)
    have hh : c0 ≠ '(' := by simpa using hhead
    have hs1 : skip_space_and_comments ('<' :: c0 :: (id2 ++ ['>'])) =
        '<' :: c0 :: (id2 ++ ['>']) :=
      skip_space_and_comments_noop _ _ (by decide) (by decide)
    have hs4 : skip_space_and_comments (c0 :: (id2 ++ ['>'])) = c0 :: (id2 ++ ['>']) :=
      skip_space_and_comments_noop _ _ hc0.1 hh
    have htw := takeWhile_all_append (fun x => x != '>') (c0 :: id2) '>' []
      (fun x hx => by simpa using (hchars x hx).2.2) (by decide)
    have hcol : collapseWs (c0 :: id2) = c0 :: id2 :=
      collapseWs_id _ (fun x hx => isSpaceC_false_elim x (hchars x hx).1)
    have hlen2 : 2 ≤ (c0 :: id2).length := by simpa using hlen
    rw [parse_message_id.eq_def]
    dsimp only
    simp only [List.cons_append, List.append_nil] at htw ⊢
    rw [hs1]
    rw [List.dropWhile_cons]
    simp only [bne_self_eq_false, if_false, Bool.false_eq_true]
    rw [hs4, htw.1, htw.2]
    have hne : id2 ≠ [] := by
      intro h
      subst h
      simp at hlen
    simp [hlen2, hcol, hne]

/-- C4 witness: the amended round-trip at the identifier `"ab"`. -/
theorem c4_roundtrip_witness :
    parse_message_id ('<' :: "ab".toList ++ ['>']) = (some "ab".toList, []) :=
  c4_roundtrip "ab".toList (by decide) (by decide) (by decide)

/-- C10: the parser is total — `skip_space_and_comments` never moves
past the terminator (its result is a suffix of its input, and the
recursions are structural, covering unclosed comments and a trailing
backslash escape), `_parse_message_id` leaves `*next` inside the
input, and any identifier it yields is non-empty. -/
theorem c10_parser_total (s : List Char) :
    skip_space_and_comments s <:+ s ∧
      (parse_message_id s).2 <:+ s ∧
      (∀ id, (parse_message_id s).1 = some id → id ≠ []) :=
  ⟨skip_space_and_comments_suffix s, (parse_message_id_structure s).1,
    (parse_message_id_structure s).2.2⟩

/-- C10 witness: a comment followed by an unterminated `<ab` yields
the non-empty identifier `"ab"`. -/
theorem c10_witness :
    (parse_message_id "(c) <ab".toList).1 = some "ab".toList ∧ "ab".toList ≠ [] :=
  ⟨by decide, (c10_parser_total "(c) <ab".toList).2.2 _ (by decide)⟩

/-! Lemmas about `parse_references` -/

theorem getLast?_mem_self {α : Type} (l : List α) (a : α) (h : l.getLast? = some a) :
    a ∈ l := by
  induction l with
  | nil => simp at h
  | cons x t ih =>
    rw [List.getLast?_cons] at h
    cases ht : t.getLast? with
    | none =>
      rw [ht] at h
      simp at h
      simp [h]
    | some y =>
      rw [ht] at h
      simp at h
      exact List.mem_cons_of_mem x (ih (by rw [ht, h]))

theorem mem_hashAdd (h : List Str) (k x : Str) : x ∈ hashAdd h k ↔ x ∈ h ∨ x = k := by
  unfold hashAdd
  split
  · rename_i hk
    constructor
    · exact fun hx => Or.inl hx
    · rintro (hx | rfl)
      · exact hx
      · exact hk
  · simp

theorem mem_foldl_hashAdd (l : List Str) : ∀ (h : List Str) (x : Str),
    x ∈ l.foldl hashAdd h ↔ x ∈ h ∨ x ∈ l := by
  induction l with
  | nil => simp
  | cons a t ih =>
    intro h x
    rw [List.foldl_cons, ih, mem_hashAdd]
    constructor
    · rintro ((hx | rfl) | hx)
      · exact Or.inl hx
      · exact Or.inr (by simp)
      · exact Or.inr (by simp [hx])
    · rintro (hx | hx)
      · exact Or.inl (Or.inl hx)
      · rcases List.mem_cons.1 hx with rfl | hx
        · exact Or.inl (Or.inr rfl)
        · exact Or.inr hx

/-- The `parse_references` loop, related to the plain list of parsed
identifiers: the hash receives every non-self identifier (in first
appearance order), and the returned last reference is the last
non-self identifier when one exists. -/
theorem parseRefsAux_spec (selfId : Str) : ∀ (fuel : Nat) (s : List Char) (h : List Str)
    (lastR : Option Str), s.length ≤ fuel →
    parseRefsAux selfId fuel h lastR s =
      (((parseAllAux fuel s).filter (fun r => r != selfId)).foldl hashAdd h,
        (((parseAllAux fuel s).filter (fun r => r != selfId)).getLast?).or lastR) := by
  intro fuel
  induction fuel with
  | zero =>
    intro s h lastR hle
    match s with
    | [] => simp [parseRefsAux, parseAllAux]
  | succ fuel ih =>
    intro s h lastR hle
    match s with
    | [] => simp [parseRefsAux, parseAllAux]
    | c :: cs =>
      have hlt : (parse_message_id (c :: cs)).2.length ≤ fuel := by
        have := parse_rest_lt (c :: cs) (by simp)
        simp at hle this
        omega
      rw [parseRefsAux, parseAllAux]
      rcases hp : parse_message_id (c :: cs) with ⟨r, rest⟩
      rw [hp] at hlt
      cases r with
      | none =>
        dsimp only
        exact ih rest h lastR hlt
      | some ref =>
        dsimp only
        by_cases hr : (ref != selfId) = true
        · rw [if_pos hr]
          rw [ih rest (hashAdd h ref) (some ref) hlt]
          rw [List.filter_cons]
          simp only [hr, if_true]
          rw [List.foldl_cons, List.getLast?_cons]
          cases hL : ((parseAllAux fuel rest).filter (fun r => r != selfId)).getLast? with
          | none => simp [hL]
          | some y => simp [hL]
        · rw [if_neg hr]
          rw [ih rest h lastR hlt]
          rw [List.filter_cons]
          simp only [hr, if_false, Bool.false_eq_true]

theorem parseReferences_spec (selfId : Str) (h : List Str) (s : List Char) :
    parseReferences selfId h s =
      (((parseAllIds s).filter (fun r => r != selfId)).foldl hashAdd h,
        ((parseAllIds s).filter (fun r => r != selfId)).getLast?) := by
  unfold parseReferences parseAllIds
  rw [parseRefsAux_spec selfId s.length s h none le_rfl]
  cases ((parseAllAux s.length s).filter (fun r => r != selfId)).getLast? <;>
    simp [Option.or]

/-- Every key accumulated by the two `parse_references` calls differs
from the message's own id (the self-filter), and is one of the parsed
identifiers. -/
theorem parents_mem (selfId : Str) (refsH irtH : Str) (x : Str)
    (hx : x ∈ (parseReferences selfId (parseReferences selfId [] refsH).1 irtH).1) :
    (x ∈ parseAllIds refsH ∨ x ∈ parseAllIds irtH) ∧ x ≠ selfId := by
  rw [parseReferences_spec, parseReferences_spec] at hx
  dsimp only at hx
  rw [mem_foldl_hashAdd, mem_foldl_hashAdd] at hx
  simp only [List.mem_filter, List.not_mem_nil, false_or, bne_iff_ne, ne_eq] at hx
  rcases hx with ⟨h1, h2⟩ | ⟨h1, h2⟩
  · exact ⟨Or.inl h1, h2⟩
  · exact ⟨Or.inr h1, h2⟩

/-! Basic index lemmas -/

theorem find?_map_msgid (g : Doc → Doc) (hg : ∀ d, (g d).msgid = d.msgid) (l : List Doc)
    (id : Str) :
    (l.map g).find? (fun d => d.msgid == id) = (l.find? (fun d => d.msgid == id)).map g := by
  induction l with
  | nil => rfl
  | cons a t ih =>
    cases hpa : (a.msgid == id) with
    | true => simp [List.find?_cons, hg a, hpa]
    | false => simp [List.find?_cons, hg a, hpa, ih]

theorem mergeDoc_msgid (w l : Nat) (d : Doc) : (mergeDoc w l d).msgid = d.msgid := by
  unfold mergeDoc
  split <;> rfl

theorem mergeDoc_fields (w l : Nat) (d : Doc) :
    (mergeDoc w l d).msgid = d.msgid ∧ (mergeDoc w l d).isGhost = d.isGhost ∧
      (mergeDoc w l d).refs = d.refs ∧ (mergeDoc w l d).replyto = d.replyto ∧
      (mergeDoc w l d).files = d.files ∧
      (mergeDoc w l d).thread = (if d.thread = l then w else d.thread) := by
  unfold mergeDoc
  split <;> simp_all

theorem dbFind_merge (db : DB) (w l : Nat) (q : Str) :
    dbFind (mergeThreads db w l) q = (dbFind db q).map (mergeDoc w l) := by
  unfold dbFind mergeThreads
  exact find?_map_msgid _ (mergeDoc_msgid w l) _ _

theorem dbFind_updateDoc (db : DB) (id : Str) (f : Doc → Doc)
    (hf : ∀ d, (f d).msgid = d.msgid) (q : Str) :
    dbFind { db with docs := updateDoc db.docs id f } q =
      (dbFind db q).map (fun d => if d.msgid == id then f d else d) := by
  unfold dbFind updateDoc
  refine find?_map_msgid _ (fun d => ?_) _ _
  dsimp only
  split
  · exact hf d
  · rfl

theorem dbFind_append_some (db : DB) (l : List Doc) (q : Str) (d : Doc)
    (h : dbFind db q = some d) :
    dbFind { db with docs := db.docs ++ l } q = some d := by
  unfold dbFind at h ⊢
  dsimp only
  rw [List.find?_append, h]
  rfl

theorem dbFind_append_none (db : DB) (l : List Doc) (q : Str)
    (h : dbFind db q = none) :
    dbFind { db with docs := db.docs ++ l } q = l.find? (fun d => d.msgid == q) := by
  unfold dbFind at h ⊢
  dsimp only
  rw [List.find?_append, h]
  rfl

theorem dbFind_some_props (db : DB) (q : Str) (d : Doc) (h : dbFind db q = some d) :
    d ∈ db.docs ∧ d.msgid = q := by
  unfold dbFind at h
  refine ⟨List.mem_of_find?_eq_some h, ?_⟩
  have := List.find?_some h
  simpa using this

theorem dbFind_none_iff (db : DB) (q : Str) :
    dbFind db q = none ↔ ∀ d ∈ db.docs, d.msgid ≠ q := by
  unfold dbFind
  rw [List.find?_eq_none]
  constructor
  · intro h d hd
    have := h d hd
    simpa using this
  · intro h d hd
    simpa using h d hd

theorem find?_of_mem_nodup (l : List Doc) (d : Doc) (hn : (l.map Doc.msgid).Nodup)
    (hd : d ∈ l) : l.find? (fun x => x.msgid == d.msgid) = some d := by
  induction l with
  | nil => simp at hd
  | cons a t ih =>
    rw [List.map_cons, List.nodup_cons] at hn
    rcases List.mem_cons.1 hd with rfl | hd2
    · simp [List.find?_cons]
    · have hne : (a.msgid == d.msgid) = false := by
        simp only [beq_eq_false_iff_ne, ne_eq]
        intro he
        exact hn.1 (he ▸ List.mem_map_of_mem Doc.msgid hd2)
      simp [List.find?_cons, hne, ih hn.2 hd2]

theorem dbFind_of_mem_nodup (db : DB) (d : Doc) (hn : (db.docs.map Doc.msgid).Nodup)
    (hd : d ∈ db.docs) : dbFind db d.msgid = some d :=
  find?_of_mem_nodup db.docs d hn hd

/-! C2: merge-threads -/

/-- C2 counterexample: the claim quantifies over every pair
(winner, loser); when winner = loser and some document carries that
thread, `_merge_threads` removes and re-adds the same term, so the
document still carries `thread`=loser afterwards, contradicting the
claimed "no document carries `thread`=loser". -/
theorem c2_counterexample :
    ¬ (∀ d ∈ (mergeThreads ⟨[⟨['m'], false, 1, [], none, []⟩], 1, [], true, false⟩ 1 1).docs,
        d.thread ≠ 1) := by decide

/-- C2 (amended): for every pair of distinct thread identifiers
(winner, loser), after merge-threads every document that carried
`thread`=loser carries `thread`=winner instead, documents that did not
carry it are unchanged, no document carries `thread`=loser, and the
non-document state is untouched; a second identical invocation leaves
the index unchanged. -/
theorem c2_merge_threads (db : DB) (w l : Nat) (hne : w ≠ l) :
    (∀ d ∈ db.docs, d.thread = l → { d with thread := w } ∈ (mergeThreads db w l).docs) ∧
      (∀ d ∈ db.docs, d.thread ≠ l → d ∈ (mergeThreads db w l).docs) ∧
      (∀ d ∈ (mergeThreads db w l).docs, d.thread ≠ l) ∧
      (mergeThreads db w l).lastThreadId = db.lastThreadId ∧
      (mergeThreads db w l).meta = db.meta ∧
      (mergeThreads db w l).featureGhosts = db.featureGhosts ∧
      (mergeThreads db w l).exceptionReported = db.exceptionReported ∧
      mergeThreads (mergeThreads db w l) w l = mergeThreads db w l := by
  have hidem : ∀ d, mergeDoc w l (mergeDoc w l d) = mergeDoc w l d := by
    intro d
    unfold mergeDoc
    split
    · simp [hne]
    · rename_i h
      simp [h]
  refine ⟨?_, ?_, ?_, rfl, rfl, rfl, rfl, ?_⟩
  · intro d hd hth
    have : mergeDoc w l d = { d with thread := w } := by unfold mergeDoc; simp [hth]
    exact this ▸ List.mem_map_of_mem (mergeDoc w l) hd
  · intro d hd hth
    have : mergeDoc w l d = d := by unfold mergeDoc; simp [hth]
    exact this ▸ List.mem_map_of_mem (mergeDoc w l) hd
  · intro d hd
    rcases List.mem_map.1 hd with ⟨x, _, rfl⟩
    unfold mergeDoc
    split
    · exact hne
    · assumption
  · unfold mergeThreads
    simp only [List.map_map]
    congr 1
    exact List.map_congr_left fun d _ => hidem d

/-- C2 witness: the amended merge lemma at a concrete two-document
index with winner 2 and loser 1. -/
theorem c2_merge_threads_witness :
    (∀ d ∈ (mergeThreads ⟨[⟨['p'], false, 1, [], none, []⟩, ⟨['q'], true, 2, [], none, []⟩],
        2, [], true, false⟩ 2 1).docs, d.thread ≠ 1) ∧
      mergeThreads (mergeThreads ⟨[⟨['p'], false, 1, [], none, []⟩,
        ⟨['q'], true, 2, [], none, []⟩], 2, [], true, false⟩ 2 1) 2 1 =
        mergeThreads ⟨[⟨['p'], false, 1, [], none, []⟩, ⟨['q'], true, 2, [], none, []⟩],
          2, [], true, false⟩ 2 1 :=
  ⟨(c2_merge_threads _ 2 1 (by decide)).2.2.1,
    (c2_merge_threads _ 2 1 (by decide)).2.2.2.2.2.2.2⟩

/-! C3: duplicate message-id -/

/-- C3: when the message-id determined in Step A already names a real
(non-ghost) message, add returns DuplicateMessageId, the filename is
appended to that message's filename list, and nothing else changes:
the message keeps its thread, reference, replyto, type and id, every
other message-id resolves as before, and the thread counter, legacy
metadata and exception flag are untouched. -/
theorem c3_duplicate (db : DB) (inp : AddInput) (d : Doc) (hEmail : inp.isEmail = true)
    (hfind : dbFind db inp.msgid = some d) (hreal : d.isGhost = false) :
    (addMessage db inp).1 = Status.duplicateMessageId ∧
      dbFind (addMessage db inp).2 inp.msgid =
        some { d with files := d.files ++ [inp.filename] } ∧
      (∀ q, q ≠ inp.msgid → dbFind (addMessage db inp).2 q = dbFind db q) ∧
      (addMessage db inp).2.lastThreadId = db.lastThreadId ∧
      (addMessage db inp).2.meta = db.meta ∧
      (addMessage db inp).2.exceptionReported = db.exceptionReported := by
  have hupd : ∀ x : Doc, ({ x with files := x.files ++ [inp.filename] } : Doc).msgid = x.msgid :=
    fun x => rfl
  have hmsg : (d.msgid == inp.msgid) = true := by
    simp [(dbFind_some_props db inp.msgid d hfind).2]
  unfold addMessage
  rw [hEmail, if_neg (by simp), hfind]
  dsimp only
  rw [if_neg (by simp [hreal])]
  refine ⟨rfl, ?_, ?_, rfl, rfl, rfl⟩
  · rw [dbFind_updateDoc db inp.msgid _ hupd inp.msgid, hfind]
    have hdm := (dbFind_some_props db inp.msgid d hfind).2
    simp [hdm]
  · intro q hq
    rw [dbFind_updateDoc db inp.msgid _ hupd q]
    cases hfq : dbFind db q with
    | none => rfl
    | some dq =>
      have hdm2 : dq.msgid ≠ inp.msgid := by
        rw [(dbFind_some_props db q dq hfq).2]
        exact hq
      simp [hdm2]

/-- C3 witness: adding a second file for an already-indexed real
message. -/
theorem c3_duplicate_witness :
    (addMessage ⟨[⟨"mm".toList, false, 1, [], none, ["f1".toList]⟩], 1, [], true, false⟩
        ⟨"f2".toList, "mm".toList, [], [], true⟩).1 = Status.duplicateMessageId ∧
      dbFind (addMessage ⟨[⟨"mm".toList, false, 1, [], none, ["f1".toList]⟩], 1, [], true, false⟩
          ⟨"f2".toList, "mm".toList, [], [], true⟩).2 "mm".toList =
        some ⟨"mm".toList, false, 1, [], none, ["f1".toList, "f2".toList]⟩ :=
  ⟨(c3_duplicate _ _ ⟨"mm".toList, false, 1, [], none, ["f1".toList]⟩ (by decide) (by decide)
      (by decide)).1,
    (c3_duplicate _ _ ⟨"mm".toList, false, 1, [], none, ["f1".toList]⟩ (by decide) (by decide)
      (by decide)).2.1⟩

/-! C8: end_atomic status combination -/

/-- C8: the final status of add combines the primary status with the
`end_atomic` result: an `end_atomic` failure overrides a Success or
DuplicateMessageId primary status, any other primary status is
preserved regardless of the `end_atomic` outcome; and the full add
pipeline returns exactly this combination of its primary status. -/
theorem c8_end_atomic_override (ret ret2 : Status) (db : DB) (inp : AddInput) :
    ((ret = Status.success ∨ ret = Status.duplicateMessageId) → ret2 ≠ Status.success →
        finalStatus ret ret2 = ret2) ∧
      (ret ≠ Status.success → ret ≠ Status.duplicateMessageId → finalStatus ret ret2 = ret) ∧
      ((ret = Status.success ∨ ret = Status.duplicateMessageId) → ret2 = Status.success →
        finalStatus ret ret2 = ret) ∧
      (notmuch_database_add_message db inp none ret2).1 =
        finalStatus (addMessage db inp).1 ret2 := by
  refine ⟨?_, ?_, ?_, rfl⟩
  · intro h1 h2
    unfold finalStatus
    rw [if_pos ⟨h1, h2⟩]
  · intro h1 h2
    unfold finalStatus
    rw [if_neg]
    rintro ⟨h3 | h3, _⟩
    · exact h1 h3
    · exact h2 h3
  · intro h1 h2
    unfold finalStatus
    rw [if_neg]
    rintro ⟨_, h3⟩
    exact h3 h2

/-- C8 witness: a failing end_atomic overrides Success but not
FileError. -/
theorem c8_end_atomic_override_witness :
    finalStatus Status.success Status.xapianException = Status.xapianException ∧
      finalStatus Status.fileError Status.xapianException = Status.fileError :=
  ⟨(c8_end_atomic_override Status.success Status.xapianException emptyDB
        ⟨[], [], [], [], true⟩).1 (Or.inl rfl) (by decide),
    (c8_end_atomic_override Status.fileError Status.xapianException emptyDB
        ⟨[], [], [], [], true⟩).2.1 (by decide) (by decide)⟩

/-! C6: replyto designation -/

theorem linkMessage_replyto_or (db : DB) (selfId refsH irtH : Str) (isGhost : Bool) (gt : Nat) :
    (linkMessage db selfId refsH irtH isGhost gt).replyto =
      (((parseAllIds refsH).filter (fun r => r != selfId)).getLast?).or
        (((parseAllIds irtH).filter (fun r => r != selfId)).getLast?) := by
  unfold linkMessage
  rw [parseReferences_spec]
  dsimp only
  rw [parseReferences_spec]
  dsimp only
  split <;>
    · dsimp only
      cases hL : ((parseAllIds refsH).filter (fun r => r != selfId)).getLast? <;>
        simp [hL, Option.or]

/-- C6: the `replyto` term is added for exactly one identifier: the
last non-self identifier parsed from `References` when that header
yields at least one, otherwise the last non-self identifier parsed
from `In-Reply-To`, otherwise none (`Option.or` of the two
`getLast?`). -/
theorem c6_replyto_term (db : DB) (selfId refsH irtH : Str) (isGhost : Bool) (gt : Nat) :
    (linkMessage db selfId refsH irtH isGhost gt).replyto =
      (((parseAllIds refsH).filter (fun r => r != selfId)).getLast?).or
        (((parseAllIds irtH).filter (fun r => r != selfId)).getLast?) :=
  linkMessage_replyto_or db selfId refsH irtH isGhost gt

/-! C9: self-reference filtering -/

theorem linkParentsLoop_refsAcc : ∀ (ps : List Str) (st : LinkSt),
    (linkParentsLoop st ps).refsAcc = st.refsAcc ++ ps := by
  intro ps
  induction ps with
  | nil => intro st; simp [linkParentsLoop]
  | cons p ps ih =>
    intro st
    rw [linkParentsLoop]
    split
    · rw [ih]
      simp
    · split <;>
        · rw [ih]
          simp

theorem linkMessage_refs (db : DB) (selfId refsH irtH : Str) (g : Bool) (gt : Nat) :
    (linkMessage db selfId refsH irtH g gt).refs =
      (parseReferences selfId (parseReferences selfId [] refsH).1 irtH).1 := by
  unfold linkMessage
  split
  · split <;> (dsimp only; split <;> simp [linkParentsLoop_refsAcc])
  · dsimp only
    split <;> simp [linkParentsLoop_refsAcc]

/-- When the two headers yield no identifier other than the message's
own id, linking assigns a freshly generated thread id and adds no
reference or replyto term. -/
theorem linkMessage_no_parents (db : DB) (selfId refsH irtH : Str)
    (hg : db.featureGhosts = true)
    (h1 : (parseAllIds refsH).filter (fun r => r != selfId) = [])
    (h2 : (parseAllIds irtH).filter (fun r => r != selfId) = []) :
    linkMessage db selfId refsH irtH false 0 =
      ⟨{ db with lastThreadId := db.lastThreadId + 1 }, [], none, db.lastThreadId + 1⟩ := by
  unfold linkMessage
  rw [parseReferences_spec]
  dsimp only
  rw [parseReferences_spec]
  rw [h1, h2]
  simp [hg, linkParentsLoop, genThreadId]

/-- C9: identifiers equal to the message's own message-id are dropped
at link time — the message never receives a `reference` or `replyto`
term naming itself — and a new message all of whose parsed parent
identifiers name itself receives a freshly generated thread id (with
no references and no replyto at all). -/
theorem c9_self_reference (db : DB) (selfId refsH irtH : Str) (g : Bool) (gt : Nat)
    (inp : AddInput) :
    (selfId ∉ (linkMessage db selfId refsH irtH g gt).refs ∧
      (linkMessage db selfId refsH irtH g gt).replyto ≠ some selfId) ∧
    (inp.isEmail = true → db.featureGhosts = true → dbFind db inp.msgid = none →
      (∀ r ∈ parseAllIds inp.refsHeader, r = inp.msgid) →
      (∀ r ∈ parseAllIds inp.irtHeader, r = inp.msgid) →
      ∃ doc, dbFind (addMessage db inp).2 inp.msgid = some doc ∧ doc.refs = [] ∧
        doc.replyto = none ∧ doc.thread = db.lastThreadId + 1 ∧
        (∀ e ∈ db.docs, e.thread ≤ db.lastThreadId → doc.thread ≠ e.thread)) := by
  constructor
  · constructor
    · intro hmem
      rw [linkMessage_refs] at hmem
      exact (parents_mem selfId refsH irtH selfId hmem).2 rfl
    · rw [linkMessage_replyto_or]
      cases hL1 : ((parseAllIds refsH).filter (fun r => r != selfId)).getLast? with
      | some x =>
        have hx := List.mem_filter.1 (getLast?_mem_self _ x hL1)
        simp only [Option.or]
        intro h
        cases h
        simpa using hx.2
      | none =>
        cases hL2 : ((parseAllIds irtH).filter (fun r => r != selfId)).getLast? with
        | some x =>
          have hx := List.mem_filter.1 (getLast?_mem_self _ x hL2)
          simp only [Option.or]
          intro h
          cases h
          simpa using hx.2
        | none => simp [Option.or]
  · intro hEmail hg hfind hall1 hall2
    have h1 : (parseAllIds inp.refsHeader).filter (fun r => r != inp.msgid) = [] := by
      rw [List.filter_eq_nil_iff]
      intro a ha
      simp [hall1 a ha]
    have h2 : (parseAllIds inp.irtHeader).filter (fun r => r != inp.msgid) = [] := by
      rw [List.filter_eq_nil_iff]
      intro a ha
      simp [hall2 a ha]
    unfold addMessage
    rw [hEmail, if_neg (by simp), hfind]
    dsimp only
    rw [linkMessage_no_parents db inp.msgid inp.refsHeader inp.irtHeader hg h1 h2]
    dsimp only
    refine ⟨⟨inp.msgid, false, db.lastThreadId + 1, [], none, [inp.filename]⟩, ?_, rfl, rfl,
      rfl, ?_⟩
    · unfold dbFind
      dsimp only
      rw [List.find?_append]
      unfold dbFind at hfind
      rw [hfind]
      simp
    · intro e he hle
      dsimp only
      omega

/-- C9 witness: a fresh message whose In-Reply-To names only itself
gets no reference/replyto terms and a fresh thread. -/
theorem c9_self_reference_witness :
    "mm".toList ∉ (linkMessage emptyDB "mm".toList [] "<mm>".toList false 0).refs ∧
      ∃ doc, dbFind (addMessage emptyDB ⟨"f1".toList, "mm".toList, [], "<mm>".toList, true⟩).2
          "mm".toList = some doc ∧ doc.refs = [] ∧ doc.replyto = none ∧ doc.thread = 1 :=
  ⟨(c9_self_reference emptyDB "mm".toList [] "<mm>".toList false 0
      ⟨"f1".toList, "mm".toList, [], "<mm>".toList, true⟩).1.1,
    match (c9_self_reference emptyDB "mm".toList [] "<mm>".toList false 0
        ⟨"f1".toList, "mm".toList, [], "<mm>".toList, true⟩).2 rfl rfl rfl
        (by decide) (by decide) with
    | ⟨doc, hfind, hrefs, hreply, hthread, _⟩ => ⟨doc, hfind, hrefs, hreply, hthread⟩⟩

/-! C5/C7: legacy metadata consumption and exception handling -/

theorem find?_filter_of_imp {α : Type} (pred q : α → Bool) (l : List α)
    (himp : ∀ x, pred x = true → q x = true) :
    (l.filter q).find? pred = l.find? pred := by
  induction l with
  | nil => rfl
  | cons a t ih =>
    rw [List.filter_cons]
    cases hp : pred a with
    | true =>
      rw [if_pos (himp a hp)]
      simp [List.find?_cons, hp, ih]
    | false =>
      cases hq : q a with
      | true => simp [List.find?_cons, hp, ih]
      | false => simp [List.find?_cons, hp, ih]

theorem metaGet_metaClear (db : DB) (k : Str) : metaGet (metaClear db k) k = none := by
  unfold metaGet metaClear
  dsimp only
  rw [List.find?_eq_none.2]
  · rfl
  · intro kv hkv
    have := (List.mem_filter.1 hkv).2
    simp at this ⊢
    exact this

theorem metaGet_metaPut_ne (db : DB) (p k : Str) (t : Nat) (h : p ≠ k) :
    metaGet (metaPut db p t) k = metaGet db k := by
  unfold metaGet metaPut
  dsimp only
  rw [List.find?_append]
  have h1 : (db.meta.filter (fun kv => kv.1 != p)).find? (fun kv => kv.1 == k) =
      db.meta.find? (fun kv => kv.1 == k) := by
    refine find?_filter_of_imp _ _ _ (fun kv hkv => ?_)
    simp at hkv ⊢
    rw [hkv]
    exact fun he => h he.symm
  have h2 : ([((p, t) : Str × Nat)].find? (fun kv => kv.1 == k)) = none := by
    simp [List.find?_cons, h]
  rw [h1, h2]
  cases db.meta.find? (fun kv => kv.1 == k) <;> rfl

theorem resolveOld_frame (db : DB) (p : Str) :
    (resolveOld db p).2.docs = db.docs ∧
      (resolveOld db p).2.featureGhosts = db.featureGhosts ∧
      (resolveOld db p).2.exceptionReported = db.exceptionReported ∧
      (∀ k, k ≠ p → metaGet (resolveOld db p).2 k = metaGet db k) := by
  unfold resolveOld
  cases hf : dbFind db p with
  | some d => exact ⟨rfl, rfl, rfl, fun k _ => rfl⟩
  | none =>
    dsimp only
    cases hm : metaGet db p with
    | some t => exact ⟨rfl, rfl, rfl, fun k _ => rfl⟩
    | none =>
      refine ⟨rfl, rfl, rfl, fun k hk => ?_⟩
      exact metaGet_metaPut_ne _ p k _ (fun he => hk he.symm)

theorem resolveGhost_frame (db : DB) (p : Str) :
    (resolveGhost db p).2.featureGhosts = db.featureGhosts ∧
      (resolveGhost db p).2.meta = db.meta ∧
      (resolveGhost db p).2.exceptionReported = db.exceptionReported := by
  unfold resolveGhost
  cases hf : dbFind db p with
  | some d => exact ⟨rfl, rfl, rfl⟩
  | none => exact ⟨rfl, rfl, rfl⟩

theorem resolveThreadId_frame (db : DB) (p : Str) :
    (resolveThreadId db p).2.featureGhosts = db.featureGhosts ∧
      (∀ k, k ≠ p → metaGet (resolveThreadId db p).2 k = metaGet db k) ∧
      (∀ q, dbFind db q = none → p ≠ q → dbFind (resolveThreadId db p).2 q = none) := by
  unfold resolveThreadId
  split
  · unfold resolveGhost
    cases hf : dbFind db p with
    | some d => exact ⟨rfl, fun k _ => rfl, fun q hq _ => hq⟩
    | none =>
      refine ⟨rfl, fun k _ => rfl, fun q hq hpq => ?_⟩
      unfold dbFind at hq ⊢
      unfold genThreadId
      dsimp only
      rw [List.find?_append, hq]
      simp [List.find?_cons, hpq]
  · obtain ⟨hdocs, hflag, _, hmeta⟩ := resolveOld_frame db p
    refine ⟨hflag, hmeta, fun q hq _ => ?_⟩
    unfold dbFind at hq ⊢
    rw [hdocs]
    exact hq

theorem linkParentsLoop_frame : ∀ (ps : List Str) (st : LinkSt),
    (linkParentsLoop st ps).db.featureGhosts = st.db.featureGhosts ∧
      (∀ t, st.tid = some t → (linkParentsLoop st ps).tid = some t) ∧
      (∀ q, dbFind st.db q = none → (∀ p ∈ ps, p ≠ q) →
        dbFind (linkParentsLoop st ps).db q = none) ∧
      (∀ k, (∀ p ∈ ps, p ≠ k) → metaGet (linkParentsLoop st ps).db k = metaGet st.db k) := by
  intro ps
  induction ps with
  | nil => intro st; exact ⟨rfl, fun t h => h, fun q hq _ => hq, fun k _ => rfl⟩
  | cons p ps ih =>
    intro st
    obtain ⟨rflag, rmeta, rfind⟩ := resolveThreadId_frame st.db p
    rw [linkParentsLoop]
    have step : ∀ st' : LinkSt, st'.db = (resolveThreadId st.db p).2 ∨
        st'.db = mergeThreads (resolveThreadId st.db p).2 st.tid.iget (resolveThreadId st.db p).1 →
        (linkParentsLoop st' ps).db.featureGhosts = st.db.featureGhosts ∧
          (∀ q, dbFind st.db q = none → p ≠ q → (∀ x ∈ ps, x ≠ q) →
            dbFind (linkParentsLoop st' ps).db q = none) ∧
          (∀ k, p ≠ k → (∀ x ∈ ps, x ≠ k) →
            metaGet (linkParentsLoop st' ps).db k = metaGet st.db k) := by
      intro st' hdb
      obtain ⟨iflag, _, ifind, imeta⟩ := ih st'
      have hdbflag : st'.db.featureGhosts = st.db.featureGhosts := by
        rcases hdb with h | h <;> rw [h]
        · exact rflag
        · exact rflag
      have hdbfind : ∀ q, dbFind st.db q = none → p ≠ q → dbFind st'.db q = none := by
        intro q hq hpq
        rcases hdb with h | h <;> rw [h]
        · exact rfind q hq hpq
        · rw [dbFind_merge, rfind q hq hpq]
          rfl
      have hdbmeta : ∀ k, p ≠ k → metaGet st'.db k = metaGet st.db k := by
        intro k hpk
        rcases hdb with h | h <;> rw [h]
        · exact rmeta k (Ne.symm hpk)
        · show metaGet (mergeThreads _ _ _) k = _
          have : (mergeThreads (resolveThreadId st.db p).2 st.tid.iget
              (resolveThreadId st.db p).1).meta = (resolveThreadId st.db p).2.meta := rfl
          unfold metaGet
          rw [this]
          have h2 := rmeta k (Ne.symm hpk)
          unfold metaGet at h2
          exact h2
      refine ⟨by rw [iflag, hdbflag], fun q hq hpq hx => ?_, fun k hpk hx => ?_⟩
      · exact ifind q (hdbfind q hq hpq) hx
      · rw [imeta k hx, hdbmeta k hpk]
    split
    · rename_i hnone
      obtain ⟨sflag, sfind, smeta⟩ := step ⟨(resolveThreadId st.db p).2, st.refsAcc ++ [p],
          some (resolveThreadId st.db p).1⟩ (Or.inl rfl)
      refine ⟨sflag, ?_, ?_, ?_⟩
      · intro t ht
        rw [hnone] at ht
        cases ht
      · intro q hq hall
        exact sfind q hq (hall p (by simp)) (fun x hx => hall x (by simp [hx]))
      · intro k hall
        exact smeta k (hall p (by simp)) (fun x hx => hall x (by simp [hx]))
    · rename_i t hsome
      have htid : ∀ st' : LinkSt, st'.tid = some t → (linkParentsLoop st' ps).tid = some t :=
        fun st' h => (ih st').2.1 t h
      split
      · obtain ⟨sflag, sfind, smeta⟩ := step ⟨(resolveThreadId st.db p).2, st.refsAcc ++ [p],
            some t⟩ (Or.inl rfl)
        refine ⟨sflag, ?_, ?_, ?_⟩
        · intro t' ht'
          rw [hsome] at ht'
          cases ht'
          exact htid _ rfl
        · intro q hq hall
          exact sfind q hq (hall p (by simp)) (fun x hx => hall x (by simp [hx]))
        · intro k hall
          exact smeta k (hall p (by simp)) (fun x hx => hall x (by simp [hx]))
      · obtain ⟨sflag, sfind, smeta⟩ := step ⟨mergeThreads (resolveThreadId st.db p).2 t
            (resolveThreadId st.db p).1, st.refsAcc ++ [p], some t⟩ (by rw [hsome]; exact Or.inr rfl)
        refine ⟨sflag, ?_, ?_, ?_⟩
        · intro t' ht'
          rw [hsome] at ht'
          cases ht'
          exact htid _ rfl
        · intro q hq hall
          exact sfind q hq (hall p (by simp)) (fun x hx => hall x (by simp [hx]))
        · intro k hall
          exact smeta k (hall p (by simp)) (fun x hx => hall x (by simp [hx]))

theorem linkChildrenLoop_cons_skip (selfId c : Str) (cs : List Str) (db : DB)
    (tid : Option Nat) (hf : dbFind db c = none) :
    linkChildrenLoop selfId db tid (c :: cs) = linkChildrenLoop selfId db tid cs := by
  rw [linkChildrenLoop, hf]

theorem linkChildrenLoop_cons_first (selfId c : Str) (cs : List Str) (db : DB) (child : Doc)
    (hf : dbFind db c = some child) :
    linkChildrenLoop selfId db none (c :: cs) =
      linkChildrenLoop selfId db (some child.thread) cs := by
  rw [linkChildrenLoop, hf]

theorem linkChildrenLoop_cons_eq (selfId c : Str) (cs : List Str) (db : DB) (child : Doc)
    (t : Nat) (hf : dbFind db c = some child) (ht : child.thread = t) :
    linkChildrenLoop selfId db (some t) (c :: cs) = linkChildrenLoop selfId db (some t) cs := by
  rw [linkChildrenLoop, hf]
  dsimp only
  rw [if_pos ht]

theorem linkChildrenLoop_cons_merge (selfId c : Str) (cs : List Str) (db : DB) (child : Doc)
    (t : Nat) (hf : dbFind db c = some child) (ht : ¬ child.thread = t) :
    linkChildrenLoop selfId db (some t) (c :: cs) =
      linkChildrenLoop selfId
        (mergeThreads
          { db with
              docs := updateDoc db.docs c
                (fun d => { d with refs := d.refs.filter (fun r => r != selfId) }) }
          t child.thread)
        (some t) cs := by
  rw [linkChildrenLoop, hf]
  dsimp only
  rw [if_neg ht]

theorem linkChildrenLoop_frame (selfId : Str) : ∀ (cs : List Str) (db : DB) (tid : Option Nat),
    (linkChildrenLoop selfId db tid cs).1.meta = db.meta ∧
      (linkChildrenLoop selfId db tid cs).1.featureGhosts = db.featureGhosts ∧
      (∀ t, tid = some t → (linkChildrenLoop selfId db tid cs).2 = some t) ∧
      (∀ q, dbFind db q = none → dbFind (linkChildrenLoop selfId db tid cs).1 q = none) := by
  intro cs
  induction cs with
  | nil => intro db tid; exact ⟨rfl, rfl, fun t h => h, fun q hq => hq⟩
  | cons c cs ih =>
    intro db tid
    cases hf : dbFind db c with
    | none => rw [linkChildrenLoop_cons_skip selfId c cs db tid hf]; exact ih db tid
    | some child =>
      cases tid with
      | none =>
        rw [linkChildrenLoop_cons_first selfId c cs db child hf]
        obtain ⟨imeta, iflag, itid, ifind⟩ := ih db (some child.thread)
        refine ⟨imeta, iflag, ?_, ifind⟩
        intro t ht
        exact Option.noConfusion ht
      | some t =>
        by_cases ht : child.thread = t
        · rw [linkChildrenLoop_cons_eq selfId c cs db child t hf ht]
          obtain ⟨imeta, iflag, itid, ifind⟩ := ih db (some t)
          refine ⟨imeta, iflag, ?_, ifind⟩
          intro t2 ht2
          cases ht2
          exact itid _ rfl
        · rw [linkChildrenLoop_cons_merge selfId c cs db child t hf ht]
          set db1 : DB := { db with
            docs := updateDoc db.docs c
              (fun d => { d with refs := d.refs.filter (fun r => r != selfId) }) } with hdb1
          obtain ⟨imeta, iflag, itid, ifind⟩ := ih (mergeThreads db1 t child.thread) (some t)
          have hm1 : (mergeThreads db1 t child.thread).meta = db.meta := rfl
          have hm2 : (mergeThreads db1 t child.thread).featureGhosts = db.featureGhosts := rfl
          refine ⟨by rw [imeta, hm1], by rw [iflag, hm2], ?_, ?_⟩
          · intro t2 ht2
            cases ht2
            exact itid _ rfl
          · intro q hq
            refine ifind q ?_
            rw [dbFind_merge]
            have hq1 : dbFind db1 q = none := by
              rw [hdb1, dbFind_updateDoc db c
                (fun d => { d with refs := d.refs.filter (fun r => r != selfId) })
                (fun d => rfl) q, hq]
              rfl
            rw [hq1]
            rfl

/-- In the legacy format, a stored ParentMetadata entry for the
message's own id is consumed up front: the key is cleared, the stored
id becomes the running thread id before any parent is resolved, and it
survives as the message's final thread id. -/
theorem linkMessage_legacy_stored (db : DB) (selfId refsH irtH : Str) (t0 : Nat)
    (hlegacy : db.featureGhosts = false) (hmeta : metaGet db selfId = some t0) :
    (linkMessage db selfId refsH irtH false 0).thread = t0 ∧
      metaGet (linkMessage db selfId refsH irtH false 0).db selfId = none ∧
      (dbFind db selfId = none →
        dbFind (linkMessage db selfId refsH irtH false 0).db selfId = none) := by
  have hcons : consumeMetadataThreadId db selfId = (some t0, metaClear db selfId) := by
    unfold consumeMetadataThreadId
    rw [hmeta]
  have hpar : ∀ x, x ∈ (parseReferences selfId (parseReferences selfId [] refsH).1 irtH).1 →
      x ≠ selfId := fun x hx => (parents_mem selfId refsH irtH x hx).2
  unfold linkMessage
  simp only [hlegacy, Bool.false_eq_true, if_false, hcons]
  obtain ⟨pflag, ptid, pfind, pmeta⟩ := linkParentsLoop_frame
    (parseReferences selfId (parseReferences selfId [] refsH).1 irtH).1
    ⟨metaClear db selfId, [], some t0⟩
  set st := linkParentsLoop ⟨metaClear db selfId, [], some t0⟩
    (parseReferences selfId (parseReferences selfId [] refsH).1 irtH).1 with hst
  obtain ⟨cmeta, cflag, ctid, cfind⟩ := linkChildrenLoop_frame selfId
    ((st.db.docs.filter (fun d => d.refs.contains selfId)).map (fun d => d.msgid)) st.db st.tid
  have hstid : st.tid = some t0 := ptid t0 rfl
  have hfin : (linkChildrenLoop selfId st.db st.tid
      ((st.db.docs.filter (fun d => d.refs.contains selfId)).map (fun d => d.msgid))).2 =
      some t0 := ctid t0 hstid
  rw [hfin]
  dsimp only
  refine ⟨rfl, ?_, ?_⟩
  · have h1 : metaGet st.db selfId = metaGet (metaClear db selfId) selfId :=
      pmeta selfId (fun p hp => hpar p hp)
    have h2 : metaGet (metaClear db selfId) selfId = none := metaGet_metaClear db selfId
    unfold metaGet at h1 h2 ⊢
    rw [cmeta]
    rw [h1, h2]
  · intro hq
    refine cfind selfId ?_
    exact pfind selfId hq (fun p hp => hpar p hp)

/-- C5 counterexample: in the legacy format the stored ParentMetadata
entry is consumed *before* parent resolution
(add-message.cc:521-525), and its thread id always becomes the running
thread id when present; resolved parents are then merged into it.  On
an index with message `pp` in thread 1 and a stored entry mapping `mm`
to thread 2, adding `mm` with `References: <pp>` gives `mm` (and `pp`)
thread 2 — the claimed behavior (the first resolved parent's thread 1
becomes T when a parent resolution yields one) predicts thread 1. -/
theorem c5_counterexample :
    metaGet ⟨[⟨"pp".toList, false, 1, [], none, []⟩], 2, [("mm".toList, 2)], false, false⟩
        "mm".toList = some 2 ∧
      (dbFind ⟨[⟨"pp".toList, false, 1, [], none, []⟩], 2, [("mm".toList, 2)], false, false⟩
          "pp".toList).map Doc.thread = some 1 ∧
      (dbFind (addMessage
          ⟨[⟨"pp".toList, false, 1, [], none, []⟩], 2, [("mm".toList, 2)], false, false⟩
          ⟨"f2".toList, "mm".toList, "<pp>".toList, [], true⟩).2 "mm".toList).map Doc.thread =
        some 2 ∧
      ¬ ((dbFind (addMessage
          ⟨[⟨"pp".toList, false, 1, [], none, []⟩], 2, [("mm".toList, 2)], false, false⟩
          ⟨"f2".toList, "mm".toList, "<pp>".toList, [], true⟩).2 "mm".toList).map Doc.thread =
        some 1) := by decide

/-- C5 (amended): under the legacy format, for every newly ingested
message whose message-id has a stored ParentMetadata entry, the entry
is consumed (its key cleared) and the stored thread-id always becomes
the message's running thread-id — it is installed before Steps D-F,
so when parent resolutions yield thread ids those threads are merged
into the stored one rather than the first parent's thread becoming
the running id. -/
theorem c5_legacy_metadata (db : DB) (inp : AddInput) (t0 : Nat)
    (hEmail : inp.isEmail = true) (hlegacy : db.featureGhosts = false)
    (hfind : dbFind db inp.msgid = none) (hmeta : metaGet db inp.msgid = some t0) :
    metaGet (addMessage db inp).2 inp.msgid = none ∧
      ∃ doc, dbFind (addMessage db inp).2 inp.msgid = some doc ∧ doc.thread = t0 := by
  obtain ⟨hthread, hmeta2, hfind2⟩ := linkMessage_legacy_stored db inp.msgid inp.refsHeader
    inp.irtHeader t0 hlegacy hmeta
  unfold addMessage
  rw [hEmail, if_neg (by simp), hfind]
  dsimp only
  constructor
  · exact hmeta2
  · refine ⟨⟨inp.msgid, false,
      (linkMessage db inp.msgid inp.refsHeader inp.irtHeader false 0).thread,
      (linkMessage db inp.msgid inp.refsHeader inp.irtHeader false 0).refs,
      (linkMessage db inp.msgid inp.refsHeader inp.irtHeader false 0).replyto,
      [inp.filename]⟩, ?_, hthread⟩
    unfold dbFind
    dsimp only
    rw [List.find?_append]
    have hnone := hfind2 hfind
    unfold dbFind at hnone
    rw [hnone]
    simp

/-- C5 witness: the amended statement at the counterexample's index —
the entry for `mm` is cleared and `mm` gets the stored thread 2. -/
theorem c5_legacy_metadata_witness :
    metaGet (addMessage
        ⟨[⟨"pp".toList, false, 1, [], none, []⟩], 2, [("mm".toList, 2)], false, false⟩
        ⟨"f2".toList, "mm".toList, "<pp>".toList, [], true⟩).2 "mm".toList = none ∧
      ∃ doc, dbFind (addMessage
          ⟨[⟨"pp".toList, false, 1, [], none, []⟩], 2, [("mm".toList, 2)], false, false⟩
          ⟨"f2".toList, "mm".toList, "<pp>".toList, [], true⟩).2 "mm".toList = some doc ∧
        doc.thread = 2 :=
  c5_legacy_metadata
    ⟨[⟨"pp".toList, false, 1, [], none, []⟩], 2, [("mm".toList, 2)], false, false⟩
    ⟨"f2".toList, "mm".toList, "<pp>".toList, [], true⟩ 2 (by decide) (by decide) (by decide)
    (by decide)

/-- C7: when the index layer raises an exception during a mutation,
add returns XapianException, sets the sticky `exception_reported` flag
on the session, and the transaction is aborted so the index (its
documents, thread counter and metadata) is exactly as before the
call.  The abort semantics of `end_atomic` live outside this file and
are modelled from the spec (Step K); the status value and the sticky
flag come from the catch block at add-message.cc:694-700. -/
theorem c7_exception_abort (db : DB) (inp : AddInput) (staged : DB) (endRes : Status) :
    (notmuch_database_add_message db inp (some staged) endRes).1 = Status.xapianException ∧
      (notmuch_database_add_message db inp (some staged) endRes).2.docs = db.docs ∧
      (notmuch_database_add_message db inp (some staged) endRes).2.lastThreadId =
        db.lastThreadId ∧
      (notmuch_database_add_message db inp (some staged) endRes).2.meta = db.meta ∧
      (notmuch_database_add_message db inp (some staged) endRes).2.exceptionReported = true := by
  unfold notmuch_database_add_message abortTransaction
  dsimp only
  refine ⟨?_, rfl, rfl, rfl, rfl⟩
  unfold finalStatus
  rw [if_neg]
  rintro ⟨h1 | h1, _⟩ <;> cases h1

/-! C1: the thread-chain invariant -/

theorem Inv_mapDocs (db : DB) (g : Doc → Doc)
    (hmsgid : ∀ d, (g d).msgid = d.msgid) (hthread : ∀ d, (g d).thread = d.thread)
    (hrefs : ∀ d, (g d).refs = d.refs) (hreply : ∀ d, (g d).replyto = d.replyto)
    (hghost : ∀ d, (g d).isGhost = d.isGhost) (hInv : Inv db) :
    Inv { db with docs := db.docs.map g } := by
  constructor
  · have heq : (db.docs.map g).map Doc.msgid = db.docs.map Doc.msgid := by
      rw [List.map_map]
      exact List.map_congr_left fun d _ => hmsgid d
    show ((db.docs.map g).map Doc.msgid).Nodup
    rw [heq]
    exact hInv.nodupIds
  · intro d hd r hr
    rcases List.mem_map.1 hd with ⟨x, hx, rfl⟩
    rw [hrefs x] at hr
    obtain ⟨e, he, het⟩ := hInv.refsClosed x hx r hr
    refine ⟨g e, ?_, ?_⟩
    · show (db.docs.map g).find? (fun d => d.msgid == r) = some (g e)
      rw [find?_map_msgid g hmsgid]
      unfold dbFind at he
      rw [he]
      rfl
    · rw [hthread e, hthread x, het]
  · intro d hd r hrep
    rcases List.mem_map.1 hd with ⟨x, hx, rfl⟩
    rw [hreply x] at hrep
    rw [hrefs x]
    exact hInv.replyMem x hx r hrep
  · intro d hd hgh
    rcases List.mem_map.1 hd with ⟨x, hx, rfl⟩
    rw [hghost x] at hgh
    rw [hrefs x, hreply x]
    exact hInv.ghostBlank x hx hgh

theorem Inv_merge (db : DB) (w l : Nat) (hInv : Inv db) : Inv (mergeThreads db w l) := by
  constructor
  · have heq : ((mergeThreads db w l).docs).map Doc.msgid = db.docs.map Doc.msgid := by
      show ((db.docs.map (mergeDoc w l)).map Doc.msgid) = _
      rw [List.map_map]
      exact List.map_congr_left fun d _ => mergeDoc_msgid w l d
    rw [heq]
    exact hInv.nodupIds
  · intro d hd r hr
    rcases List.mem_map.1 hd with ⟨x, hx, rfl⟩
    rw [(mergeDoc_fields w l x).2.2.1] at hr
    obtain ⟨e, he, het⟩ := hInv.refsClosed x hx r hr
    refine ⟨mergeDoc w l e, ?_, ?_⟩
    · rw [dbFind_merge, he]
      rfl
    · rw [(mergeDoc_fields w l e).2.2.2.2.2, (mergeDoc_fields w l x).2.2.2.2.2, het]
  · intro d hd r hrep
    rcases List.mem_map.1 hd with ⟨x, hx, rfl⟩
    rw [(mergeDoc_fields w l x).2.2.2.1] at hrep
    rw [(mergeDoc_fields w l x).2.2.1]
    exact hInv.replyMem x hx r hrep
  · intro d hd hgh
    rcases List.mem_map.1 hd with ⟨x, hx, rfl⟩
    rw [(mergeDoc_fields w l x).2.1] at hgh
    rw [(mergeDoc_fields w l x).2.2.1, (mergeDoc_fields w l x).2.2.2.1]
    exact hInv.ghostBlank x hx hgh

theorem resolveThreadId_ghost_spec (db : DB) (p : Str) (hg : db.featureGhosts = true)
    (hInv : Inv db) :
    (resolveThreadId db p).2.featureGhosts = true ∧
      Inv (resolveThreadId db p).2 ∧
      (∃ e, dbFind (resolveThreadId db p).2 p = some e ∧ e.thread = (resolveThreadId db p).1) ∧
      (∀ q dq, dbFind db q = some dq → dbFind (resolveThreadId db p).2 q = some dq) ∧
      (∀ q, dbFind db q = none → q ≠ p → dbFind (resolveThreadId db p).2 q = none) := by
  unfold resolveThreadId
  rw [if_pos hg]
  unfold resolveGhost
  cases hf : dbFind db p with
  | some d => exact ⟨hg, hInv, ⟨d, hf, rfl⟩, fun q dq h => h, fun q h _ => h⟩
  | none =>
    unfold genThreadId
    dsimp only
    have hp_not : ∀ d ∈ db.docs, d.msgid ≠ p := (dbFind_none_iff db p).1 hf
    have hfindg : ∀ q, ([(⟨p, true, db.lastThreadId + 1, [], none, []⟩ : Doc)].find?
        (fun d => d.msgid == q)) = if p = q then
          some ⟨p, true, db.lastThreadId + 1, [], none, []⟩ else none := by
      intro q
      by_cases hpq : p = q <;> simp [List.find?_cons, hpq]
    refine ⟨hg, ?_, ?_, ?_, ?_⟩
    · constructor
      · show ((db.docs ++ [_]).map Doc.msgid).Nodup
        rw [List.map_append]
        rw [List.nodup_append]
        refine ⟨hInv.nodupIds, by simp, ?_⟩
        intro a ha hb
        simp at hb
        rcases List.mem_map.1 ha with ⟨d, hd, rfl⟩
        exact hp_not d hd hb
      · intro d hd r hr
        rcases List.mem_append.1 hd with hd1 | hd1
        · obtain ⟨e, he, het⟩ := hInv.refsClosed d hd1 r hr
          refine ⟨e, ?_, het⟩
          show ((db.docs ++ [(⟨p, true, db.lastThreadId + 1, [], none, []⟩ : Doc)]).find? (fun x => x.msgid == r)) = some e
          unfold dbFind at he
          rw [List.find?_append, he]
          rfl
        · simp at hd1
          rw [hd1] at hr
          simp at hr
      · intro d hd r hrep
        rcases List.mem_append.1 hd with hd1 | hd1
        · exact hInv.replyMem d hd1 r hrep
        · simp at hd1
          rw [hd1] at hrep
          simp at hrep
      · intro d hd hgh
        rcases List.mem_append.1 hd with hd1 | hd1
        · exact hInv.ghostBlank d hd1 hgh
        · simp at hd1
          rw [hd1]
          exact ⟨rfl, rfl⟩
    · refine ⟨⟨p, true, db.lastThreadId + 1, [], none, []⟩, ?_, rfl⟩
      show ((db.docs ++ [(⟨p, true, db.lastThreadId + 1, [], none, []⟩ : Doc)]).find? (fun x => x.msgid == p)) = _
      unfold dbFind at hf
      rw [List.find?_append, hf, hfindg p]
      simp
    · intro q dq h
      show ((db.docs ++ [(⟨p, true, db.lastThreadId + 1, [], none, []⟩ : Doc)]).find? (fun x => x.msgid == q)) = some dq
      unfold dbFind at h
      rw [List.find?_append, h]
      rfl
    · intro q h hqp
      show ((db.docs ++ [(⟨p, true, db.lastThreadId + 1, [], none, []⟩ : Doc)]).find? (fun x => x.msgid == q)) = none
      unfold dbFind at h
      rw [List.find?_append, h, hfindg q]
      simp
      exact fun he => hqp he.symm

theorem linkParentsLoop_cons_first (st : LinkSt) (p : Str) (ps : List Str)
    (h : st.tid = none) :
    linkParentsLoop st (p :: ps) =
      linkParentsLoop ⟨(resolveThreadId st.db p).2, st.refsAcc ++ [p],
        some (resolveThreadId st.db p).1⟩ ps := by
  rw [linkParentsLoop, h]

theorem linkParentsLoop_cons_eq (st : LinkSt) (p : Str) (ps : List Str) (t : Nat)
    (h : st.tid = some t) (heq : (resolveThreadId st.db p).1 = t) :
    linkParentsLoop st (p :: ps) =
      linkParentsLoop ⟨(resolveThreadId st.db p).2, st.refsAcc ++ [p], some t⟩ ps := by
  rw [linkParentsLoop, h]
  dsimp only
  rw [if_pos heq]

theorem linkParentsLoop_cons_merge (st : LinkSt) (p : Str) (ps : List Str) (t : Nat)
    (h : st.tid = some t) (hne : ¬ (resolveThreadId st.db p).1 = t) :
    linkParentsLoop st (p :: ps) =
      linkParentsLoop ⟨mergeThreads (resolveThreadId st.db p).2 t (resolveThreadId st.db p).1,
        st.refsAcc ++ [p], some t⟩ ps := by
  rw [linkParentsLoop, h]
  dsimp only
  rw [if_neg hne]

/-- The parent loop of the current (ghost) format preserves the index
invariant, tracks that every accumulated `reference` term resolves to
a document in the running thread, never reassigns the running thread
id once set, and leaves the current message's own document (absent, or
a ghost in the running thread) untouched. -/
theorem linkParentsLoop_ghost (selfId : Str) : ∀ (ps : List Str) (st : LinkSt),
    st.db.featureGhosts = true → Inv st.db → (∀ p ∈ ps, p ≠ selfId) →
    (st.tid = none → st.refsAcc = []) →
    (∀ t, st.tid = some t → ∀ r ∈ st.refsAcc,
      ∃ e, dbFind st.db r = some e ∧ e.thread = t) →
    (linkParentsLoop st ps).db.featureGhosts = true ∧
      Inv (linkParentsLoop st ps).db ∧
      (∀ t, (linkParentsLoop st ps).tid = some t → ∀ r ∈ (linkParentsLoop st ps).refsAcc,
        ∃ e, dbFind (linkParentsLoop st ps).db r = some e ∧ e.thread = t) ∧
      (∀ t, st.tid = some t → (linkParentsLoop st ps).tid = some t) ∧
      ((linkParentsLoop st ps).tid = none → st.tid = none ∧ ps = []) ∧
      (dbFind st.db selfId = none → dbFind (linkParentsLoop st ps).db selfId = none) ∧
      (∀ dg, dbFind st.db selfId = some dg → st.tid = some dg.thread →
        dbFind (linkParentsLoop st ps).db selfId = some dg) := by
  intro ps
  induction ps with
  | nil =>
    intro st hg hInv hps hnil hacc
    exact ⟨hg, hInv, hacc, fun t h => h, fun h => ⟨h, rfl⟩, fun h => h, fun dg h _ => h⟩
  | cons p ps ih =>
    intro st hg hInv hps hnil hacc
    have hpself : p ≠ selfId := hps p (by simp)
    have hps' : ∀ x ∈ ps, x ≠ selfId := fun x hx => hps x (by simp [hx])
    obtain ⟨rflag, rInv, ⟨ep, hep, hept⟩, rsome, rnone⟩ :=
      resolveThreadId_ghost_spec st.db p hg hInv
    cases hst : st.tid with
    | none =>
      rw [linkParentsLoop_cons_first st p ps hst]
      have hacc0 : st.refsAcc = [] := hnil hst
      obtain ⟨iflag, iInv, iacc, isome, inone, ifn, ifs⟩ :=
        ih ⟨(resolveThreadId st.db p).2, st.refsAcc ++ [p],
          some (resolveThreadId st.db p).1⟩ rflag rInv hps'
          (fun h => nomatch h)
          (by
            intro t ht r hr
            cases ht
            rw [hacc0] at hr
            simp at hr
            rw [hr]
            exact ⟨ep, hep, hept⟩)
      refine ⟨iflag, iInv, iacc, ?_, ?_, ?_, ?_⟩
      · intro t ht
        exact nomatch ht
      · intro h
        rw [isome _ rfl] at h
        exact nomatch h
      · intro h
        exact ifn (rnone selfId h (Ne.symm hpself))
      · intro dg hfg htid
        exact nomatch htid
    | some t =>
      by_cases heq : (resolveThreadId st.db p).1 = t
      · rw [linkParentsLoop_cons_eq st p ps t hst heq]
        obtain ⟨iflag, iInv, iacc, isome, inone, ifn, ifs⟩ :=
          ih ⟨(resolveThreadId st.db p).2, st.refsAcc ++ [p], some t⟩ rflag rInv hps'
            (fun h => nomatch h)
            (by
              intro t' ht' r hr
              cases ht'
              rcases List.mem_append.1 hr with hr1 | hr1
              · obtain ⟨e, he, het⟩ := hacc t hst r hr1
                exact ⟨e, rsome r e he, het⟩
              · simp at hr1
                rw [hr1]
                exact ⟨ep, hep, heq ▸ hept⟩)
        refine ⟨iflag, iInv, iacc, ?_, ?_, ?_, ?_⟩
        · intro t' ht'
          cases ht'
          exact isome _ rfl
        · intro h
          rw [isome _ rfl] at h
          exact nomatch h
        · intro h
          exact ifn (rnone selfId h (Ne.symm hpself))
        · intro dg hfg htid
          cases htid
          exact ifs dg (rsome selfId dg hfg) rfl
      · rw [linkParentsLoop_cons_merge st p ps t hst heq]
        have mflag : (mergeThreads (resolveThreadId st.db p).2 t
            (resolveThreadId st.db p).1).featureGhosts = true := rflag
        obtain ⟨iflag, iInv, iacc, isome, inone, ifn, ifs⟩ :=
          ih ⟨mergeThreads (resolveThreadId st.db p).2 t (resolveThreadId st.db p).1,
            st.refsAcc ++ [p], some t⟩ mflag (Inv_merge _ _ _ rInv) hps'
            (fun h => nomatch h)
            (by
              intro t' ht' r hr
              cases ht'
              rcases List.mem_append.1 hr with hr1 | hr1
              · obtain ⟨e, he, het⟩ := hacc t hst r hr1
                refine ⟨mergeDoc t (resolveThreadId st.db p).1 e, ?_, ?_⟩
                · dsimp only
                  rw [dbFind_merge, rsome r e he]
                  rfl
                · rw [(mergeDoc_fields _ _ e).2.2.2.2.2, het]
                  simp
              · simp at hr1
                rw [hr1]
                refine ⟨mergeDoc t (resolveThreadId st.db p).1 ep, ?_, ?_⟩
                · dsimp only
                  rw [dbFind_merge, hep]
                  rfl
                · rw [(mergeDoc_fields _ _ ep).2.2.2.2.2, if_pos hept])
        refine ⟨iflag, iInv, iacc, ?_, ?_, ?_, ?_⟩
        · intro t' ht'
          cases ht'
          exact isome _ rfl
        · intro h
          rw [isome _ rfl] at h
          exact nomatch h
        · intro h
          refine ifn ?_
          dsimp only
          rw [dbFind_merge, rnone selfId h (Ne.symm hpself)]
          rfl
        · intro dg hfg htid
          cases htid
          refine ifs dg ?_ rfl
          dsimp only
          rw [dbFind_merge, rsome selfId dg hfg]
          show some (mergeDoc _ _ dg) = some dg
          unfold mergeDoc
          rw [if_neg (fun hc => heq hc.symm)]

theorem Inv_lastThreadId (db : DB) (x : Nat) (hInv : Inv db) :
    Inv { db with lastThreadId := x } :=
  ⟨hInv.nodupIds, hInv.refsClosed, hInv.replyMem, hInv.ghostBlank⟩

/-- Linking in the ghost format: the invariant is preserved, every
accumulated `reference` term resolves to a document carrying the
message's final thread id, the `replyto` designate is one of the
`reference` terms, and the message's own document is untouched (blank
stays absent, a ghost in its own thread survives unchanged and its
thread id wins). -/
theorem linkMessage_ghost_spec (db : DB) (selfId refsH irtH : Str) (isGhost : Bool) (gt : Nat)
    (hg : db.featureGhosts = true) (hInv : Inv db) :
    (linkMessage db selfId refsH irtH isGhost gt).db.featureGhosts = true ∧
      Inv (linkMessage db selfId refsH irtH isGhost gt).db ∧
      (∀ r ∈ (linkMessage db selfId refsH irtH isGhost gt).refs,
        r ≠ selfId ∧ ∃ e, dbFind (linkMessage db selfId refsH irtH isGhost gt).db r = some e ∧
          e.thread = (linkMessage db selfId refsH irtH isGhost gt).thread) ∧
      (∀ x, (linkMessage db selfId refsH irtH isGhost gt).replyto = some x →
        x ∈ (linkMessage db selfId refsH irtH isGhost gt).refs) ∧
      (isGhost = false → dbFind db selfId = none →
        dbFind (linkMessage db selfId refsH irtH isGhost gt).db selfId = none) ∧
      (∀ dg, isGhost = true → gt = dg.thread → dbFind db selfId = some dg →
        dbFind (linkMessage db selfId refsH irtH isGhost gt).db selfId = some dg ∧
          (linkMessage db selfId refsH irtH isGhost gt).thread = dg.thread) := by
  have hps : ∀ p ∈ (parseReferences selfId (parseReferences selfId [] refsH).1 irtH).1,
      p ≠ selfId := fun p hp => (parents_mem selfId refsH irtH p hp).2
  have hreply : ∀ x, (match (parseReferences selfId [] refsH).2 with
      | some r => some r
      | none => (parseReferences selfId (parseReferences selfId [] refsH).1 irtH).2) = some x →
      x ∈ (parseReferences selfId (parseReferences selfId [] refsH).1 irtH).1 := by
    intro x hx
    rw [parseReferences_spec, parseReferences_spec] at hx ⊢
    dsimp only at hx ⊢
    rw [mem_foldl_hashAdd]
    cases hL : ((parseAllIds refsH).filter (fun r => r != selfId)).getLast? with
    | some y =>
      rw [hL] at hx
      cases hx
      left
      rw [mem_foldl_hashAdd]
      right
      exact getLast?_mem_self _ _ hL
    | none =>
      rw [hL] at hx
      right
      exact getLast?_mem_self _ _ hx
  unfold linkMessage
  rw [if_pos hg]
  dsimp only
  rw [if_pos hg]
  dsimp only
  obtain ⟨lflag, lInv, lacc, lsome, lnone, lfn, lfs⟩ :=
    linkParentsLoop_ghost selfId (parseReferences selfId (parseReferences selfId [] refsH).1 irtH).1
      ⟨db, [], if isGhost = true then some gt else none⟩ hg hInv hps
      (fun _ => rfl) (fun t ht r hr => absurd hr (List.not_mem_nil r))
  cases hstid : (linkParentsLoop ⟨db, [], if isGhost = true then some gt else none⟩
      (parseReferences selfId (parseReferences selfId [] refsH).1 irtH).1).tid with
  | some t =>
    dsimp only
    refine ⟨lflag, lInv, ?_, ?_, ?_, ?_⟩
    swap
    · intro x hx
      rw [linkParentsLoop_refsAcc]
      exact hreply x hx
    · intro r hr
      exact ⟨hps r (by
        have := linkParentsLoop_refsAcc
          (parseReferences selfId (parseReferences selfId [] refsH).1 irtH).1
          ⟨db, [], if isGhost = true then some gt else none⟩
        rw [this] at hr
        simpa using hr), lacc t hstid r hr⟩
    · intro hgh hfind
      exact lfn hfind
    · intro dg hgh hgt hfind
      have : (⟨db, [], if isGhost = true then some gt else none⟩ : LinkSt).tid =
          some dg.thread := by
        dsimp only
        rw [hgh, if_pos rfl, hgt]
      refine ⟨lfs dg hfind this, ?_⟩
      have h2 := lsome dg.thread this
      rw [hstid] at h2
      cases h2
      rfl
  | none =>
    dsimp only
    obtain ⟨htid0, hpsnil⟩ := lnone hstid
    have haccnil : (linkParentsLoop ⟨db, [], if isGhost = true then some gt else none⟩
        (parseReferences selfId (parseReferences selfId [] refsH).1 irtH).1).refsAcc = [] := by
      rw [linkParentsLoop_refsAcc, hpsnil]
      rfl
    have hdbeq : (linkParentsLoop ⟨db, [], if isGhost = true then some gt else none⟩
        (parseReferences selfId (parseReferences selfId [] refsH).1 irtH).1).db = db := by
      rw [hpsnil]
      rfl
    have hrepnil : ∀ x, (match (parseReferences selfId [] refsH).2 with
        | some r => some r
        | none => (parseReferences selfId (parseReferences selfId [] refsH).1 irtH).2) =
          some x → False := by
      intro x hx
      have := hreply x hx
      rw [hpsnil] at this
      exact absurd this (List.not_mem_nil x)
    refine ⟨?_, ?_, ?_, ?_, ?_, ?_⟩
    · show (genThreadId _).2.featureGhosts = true
      unfold genThreadId
      dsimp only
      exact lflag
    · show Inv (genThreadId _).2
      unfold genThreadId
      dsimp only
      exact Inv_lastThreadId _ _ lInv
    · intro r hr
      rw [haccnil] at hr
      exact absurd hr (List.not_mem_nil r)
    · intro x hx
      exact absurd hx (fun h => hrepnil x h)
    · intro hgh hfind
      show dbFind (genThreadId _).2 selfId = none
      have : dbFind (genThreadId (linkParentsLoop ⟨db, [],
          if isGhost = true then some gt else none⟩
          (parseReferences selfId (parseReferences selfId [] refsH).1 irtH).1).db).2 selfId =
          dbFind (linkParentsLoop ⟨db, [], if isGhost = true then some gt else none⟩
          (parseReferences selfId (parseReferences selfId [] refsH).1 irtH).1).db selfId := rfl
      rw [this]
      exact lfn hfind
    · intro dg hgh hgt hfind
      exfalso
      have : (⟨db, [], if isGhost = true then some gt else none⟩ : LinkSt).tid =
          some dg.thread := by
        dsimp only
        rw [hgh, if_pos rfl, hgt]
      have h2 := lsome dg.thread this
      rw [hstid] at h2
      exact nomatch h2

theorem dbFind_updateDoc2 (db : DB) (id : Str) (f : Doc → Doc)
    (hf : ∀ d, (d.msgid == id) = true → (f d).msgid = d.msgid) (q : Str) :
    dbFind { db with docs := updateDoc db.docs id f } q =
      (dbFind db q).map (fun d => if d.msgid == id then f d else d) := by
  unfold dbFind updateDoc
  refine find?_map_msgid _ (fun d => ?_) _ _
  dsimp only
  split
  · exact hf d (by assumption)
  · rfl

theorem dbFind_append_one (dbx : DB) (nd : Doc) (q : Str) :
    dbFind { dbx with docs := dbx.docs ++ [nd] } q =
      (dbFind dbx q).or (if nd.msgid == q then some nd else none) := by
  unfold dbFind
  dsimp only
  rw [List.find?_append]
  congr 1
  cases h : (nd.msgid == q) <;> simp [List.find?_cons, h]

/-- A successful add in the current (ghost) format preserves the index
invariant. -/
theorem Inv_addMessage (db : DB) (inp : AddInput) (hg : db.featureGhosts = true)
    (hInv : Inv db) :
    Inv (addMessage db inp).2 ∧ (addMessage db inp).2.featureGhosts = true := by
  unfold addMessage
  by_cases hemail : inp.isEmail = false
  · rw [if_pos hemail]
    exact ⟨hInv, hg⟩
  · rw [if_neg hemail]
    cases hfind : dbFind db inp.msgid with
    | none =>
      dsimp only
      obtain ⟨lflag, lInv, lrefs, lreply, lfn, lfs⟩ :=
        linkMessage_ghost_spec db inp.msgid inp.refsHeader inp.irtHeader false 0 hg hInv
      have hfn : dbFind (linkMessage db inp.msgid inp.refsHeader inp.irtHeader false 0).db
          inp.msgid = none := lfn rfl hfind
      constructor
      · constructor
        · show ((_ ++ [_]).map Doc.msgid).Nodup
          rw [List.map_append, List.nodup_append]
          refine ⟨lInv.nodupIds, by simp, ?_⟩
          intro a ha hb
          simp at hb
          rcases List.mem_map.1 ha with ⟨e, he, rfl⟩
          exact (dbFind_none_iff _ _).1 hfn e he hb
        · intro d2 hd2 rr hrr
          rcases List.mem_append.1 hd2 with hd1 | hd1
          · obtain ⟨e, he, het⟩ := lInv.refsClosed d2 hd1 rr hrr
            refine ⟨e, ?_, het⟩
            rw [dbFind_append_one, he]
            rfl
          · simp at hd1
            rw [hd1] at hrr ⊢
            dsimp only at hrr ⊢
            obtain ⟨hrne, e, he, het⟩ := lrefs rr hrr
            refine ⟨e, ?_, het⟩
            rw [dbFind_append_one, he]
            rfl
        · intro d2 hd2 rr hrep
          rcases List.mem_append.1 hd2 with hd1 | hd1
          · exact lInv.replyMem d2 hd1 rr hrep
          · simp at hd1
            rw [hd1] at hrep ⊢
            exact lreply rr hrep
        · intro d2 hd2 hgh
          rcases List.mem_append.1 hd2 with hd1 | hd1
          · exact lInv.ghostBlank d2 hd1 hgh
          · simp at hd1
            rw [hd1] at hgh
            exact absurd hgh (by simp)
      · exact lflag
    | some d =>
      dsimp only
      cases hghost : d.isGhost with
      | false =>
        rw [if_neg (by simp)]
        have hmap : updateDoc db.docs inp.msgid
            (fun x => { x with files := x.files ++ [inp.filename] }) =
            db.docs.map (fun x => if x.msgid == inp.msgid then
              { x with files := x.files ++ [inp.filename] } else x) := rfl
        constructor
        · rw [hmap]
          exact Inv_mapDocs db _
            (fun x => by split <;> rfl)
            (fun x => by split <;> rfl)
            (fun x => by split <;> rfl)
            (fun x => by split <;> rfl)
            (fun x => by split <;> rfl) hInv
        · exact hg
      | true =>
        rw [if_pos rfl]
        obtain ⟨lflag, lInv, lrefs, lreply, lfn, lfs⟩ :=
          linkMessage_ghost_spec db inp.msgid inp.refsHeader inp.irtHeader true d.thread hg hInv
        obtain ⟨hfd, hthr⟩ := lfs d rfl rfl hfind
        obtain ⟨hdrefs, hdrep⟩ := hInv.ghostBlank d (dbFind_some_props db _ d hfind).1 hghost
        set r := linkMessage db inp.msgid inp.refsHeader inp.irtHeader true d.thread with hrdef
        set newDoc : Doc := ⟨inp.msgid, false, r.thread, d.refs ++ r.refs,
          (match r.replyto with | some x => some x | none => d.replyto),
          d.files ++ [inp.filename]⟩ with hnd
        have hndrefs : newDoc.refs = r.refs := by rw [hnd]; dsimp only; rw [hdrefs]; simp
        have hndrep : newDoc.replyto = r.replyto := by
          rw [hnd]
          dsimp only
          cases r.replyto <;> simp [hdrep]
        have hndmsgid : ∀ x : Doc, (x.msgid == inp.msgid) = true → newDoc.msgid = x.msgid := by
          intro x hx
          rw [hnd]
          simpa using (beq_iff_eq.1 hx).symm
        have hfind2 : ∀ q, dbFind
            { r.db with docs := updateDoc r.db.docs inp.msgid (fun _ => newDoc) } q =
            (dbFind r.db q).map (fun x => if x.msgid == inp.msgid then newDoc else x) :=
          dbFind_updateDoc2 r.db inp.msgid (fun _ => newDoc) (fun x hx => hndmsgid x hx)
        have hself_eq : ∀ x : Doc, x ∈ r.db.docs → (x.msgid == inp.msgid) = true → x = d := by
          intro x hx hbx
          have h1 := dbFind_of_mem_nodup r.db x lInv.nodupIds hx
          rw [beq_iff_eq.1 hbx] at h1
          rw [hfd] at h1
          exact (Option.some.inj h1).symm
        constructor
        · constructor
          · show ((updateDoc r.db.docs inp.msgid (fun _ => newDoc)).map Doc.msgid).Nodup
            have : (updateDoc r.db.docs inp.msgid (fun _ => newDoc)).map Doc.msgid =
                r.db.docs.map Doc.msgid := by
              unfold updateDoc
              rw [List.map_map]
              refine List.map_congr_left fun x hx => ?_
              simp only [Function.comp]
              split
              · exact hndmsgid x (by assumption)
              · rfl
            rw [this]
            exact lInv.nodupIds
          · intro d2 hd2 rr hrr
            rcases List.mem_map.1 hd2 with ⟨x, hx, rfl⟩
            dsimp only at hrr ⊢
            by_cases hbx : (x.msgid == inp.msgid) = true
            · rw [if_pos hbx] at hrr ⊢
              have hxd : x = d := hself_eq x hx hbx
              rw [hndrefs] at hrr
              obtain ⟨hrne, e, he, het⟩ := lrefs rr hrr
              have hemsgid : e.msgid = rr := (dbFind_some_props r.db rr e he).2
              refine ⟨e, ?_, ?_⟩
              · rw [hfind2 rr, he, Option.map_some']
                rw [if_neg (by rw [hemsgid]; simpa using hrne)]
              · rw [het]
            · rw [if_neg hbx] at hrr ⊢
              obtain ⟨e, he, het⟩ := lInv.refsClosed x hx rr hrr
              have hemsgid : e.msgid = rr := (dbFind_some_props r.db rr e he).2
              by_cases hbe : (e.msgid == inp.msgid) = true
              · have herr : rr = inp.msgid := by rw [← hemsgid]; exact beq_iff_eq.1 hbe
                have hed : e = d := by
                  rw [herr, hfd] at he
                  exact (Option.some.inj he).symm
                refine ⟨newDoc, ?_, ?_⟩
                · rw [hfind2 rr, he, Option.map_some']
                  rw [if_pos hbe]
                · show newDoc.thread = x.thread
                  rw [hnd]
                  dsimp only
                  rw [hthr, ← het, hed]
              · refine ⟨e, ?_, het⟩
                rw [hfind2 rr, he, Option.map_some']
                rw [if_neg hbe]
          · intro d2 hd2 rr hrep
            rcases List.mem_map.1 hd2 with ⟨x, hx, rfl⟩
            dsimp only at hrep ⊢
            by_cases hbx : (x.msgid == inp.msgid) = true
            · rw [if_pos hbx] at hrep ⊢
              rw [hndrep] at hrep
              rw [hndrefs]
              exact lreply rr hrep
            · rw [if_neg hbx] at hrep ⊢
              exact lInv.replyMem x hx rr hrep
          · intro d2 hd2 hgh
            rcases List.mem_map.1 hd2 with ⟨x, hx, rfl⟩
            dsimp only at hgh ⊢
            by_cases hbx : (x.msgid == inp.msgid) = true
            · rw [if_pos hbx] at hgh
              exact absurd hgh (by rw [hnd]; simp)
            · rw [if_neg hbx] at hgh ⊢
              exact lInv.ghostBlank x hx hgh
        · exact lflag

theorem Inv_emptyDB : Inv emptyDB :=
  ⟨by simp [emptyDB], fun d hd => by simp [emptyDB] at hd, fun d hd => by simp [emptyDB] at hd,
    fun d hd => by simp [emptyDB] at hd⟩

theorem Inv_runAdds (inputs : List AddInput) :
    Inv (runAdds inputs) ∧ (runAdds inputs).featureGhosts = true := by
  have h : ∀ (l : List AddInput) (db0 : DB), Inv db0 → db0.featureGhosts = true →
      Inv (l.foldl (fun db i => (addMessage db i).2) db0) ∧
        (l.foldl (fun db i => (addMessage db i).2) db0).featureGhosts = true := by
    intro l
    induction l with
    | nil => exact fun db0 hInv hflag => ⟨hInv, hflag⟩
    | cons i l ih =>
      intro db0 hInv hflag
      rw [List.foldl_cons]
      obtain ⟨h1, h2⟩ := Inv_addMessage db0 i hflag hInv
      exact ih (addMessage db0 i).2 h1 h2
  exact h inputs emptyDB Inv_emptyDB rfl

theorem Inv_refEdge (db : DB) (hInv : Inv db) (a b : Doc) (h : RefEdge db a b) :
    a.thread = b.thread := by
  obtain ⟨ha, hb, hcase⟩ := h
  have key : ∀ x y : Doc, x ∈ db.docs → y ∈ db.docs → y.msgid ∈ x.refs →
      x.thread = y.thread := by
    intro x y hx hy hm
    obtain ⟨e, he, het⟩ := hInv.refsClosed x hx y.msgid hm
    have hy2 := dbFind_of_mem_nodup db y hInv.nodupIds hy
    rw [hy2] at he
    rw [← het, Option.some.inj he]
  rcases hcase with hc | hc | hc | hc
  · exact key a b ha hb hc
  · exact key a b ha hb (hInv.replyMem a ha b.msgid hc)
  · exact (key b a hb ha hc).symm
  · exact (key b a hb ha (hInv.replyMem b hb a.msgid hc)).symm

/-- C1: after any sequence of add calls on a current-format index —
each add commits its transaction, so the states reached by the
prefixes of the sequence are exactly the transaction-commit points —
any two indexed documents (real or ghost) joined by a chain of
reference/reply edges, in either direction and through any
intermediaries, carry equal `thread` terms. -/
theorem c1_thread_chain (inputs : List AddInput) (a b : Doc)
    (h : Linked (runAdds inputs) a b) : a.thread = b.thread := by
  induction h with
  | refl => rfl
  | tail hab hbc ih => exact ih.trans (Inv_refEdge _ (Inv_runAdds inputs).1 _ _ hbc)

/-- C1 witness: a message and its reply, ingested in order, end in the
same thread. -/
theorem c1_thread_chain_witness :
    (⟨"bb".toList, false, 1, ["aa".toList], some "aa".toList, ["f2".toList]⟩ : Doc).thread =
      (⟨"aa".toList, false, 1, [], none, ["f1".toList]⟩ : Doc).thread :=
  c1_thread_chain
    [⟨"f1".toList, "aa".toList, [], [], true⟩, ⟨"f2".toList, "bb".toList, "<aa>".toList, [], true⟩]
    ⟨"bb".toList, false, 1, ["aa".toList], some "aa".toList, ["f2".toList]⟩
    ⟨"aa".toList, false, 1, [], none, ["f1".toList]⟩
    (Relation.ReflTransGen.single ⟨by decide, by decide, Or.inl (by decide)⟩)

example : parse_message_id "<aa>".toList = (some "aa".toList, []) := by decide
example : parse_message_id "<a>".toList = (none, []) := by decide
example : parse_message_id "<(x)abc> tail".toList = (some "abc".toList, " tail".toList) := by
  decide
example : parse_message_id " (c(o)m\\)ment) <ab".toList = (some "ab".toList, []) := by decide
example : parse_message_id "junk <a b>x".toList = (some "ab".toList, ['x']) := by decide
example : parseAllIds "(some(nested)comment)<aa@x> <bb@x>".toList = ["aa@x".toList, "bb@x".toList] := by decide

end NotmuchAdd
